import Mathlib

/-!
The process table readers of go-ps

A shallow embedding of `process_darwin.go` (kernel-snapshot reader) and
`process_unix.go` (proc-filesystem reader), followed by the properties
proved about them.

Conventions of the embedding:

* a Go `string` is its sequence of bytes (`GoString`);
* a Go `int` is a mathematical integer (64-bit `int`; buffer lengths and
  loop counters stay far below `2^63`, so they are natural numbers);
* a Go function returning `(T, error)` returns a pair whose components are
  `none` for `nil`;
* a run-time panic (index or slice bound out of range) is the outcome
  `Outcome.panic`;
* the operating system is a parameter: the replies of the two `sysctl`
  calls, the result of opening and listing `/proc`, the result of
  `os.Stat`, the bytes of the account file.
-/

set_option autoImplicit false

namespace GoPs

/-! ## Go values -/

/-- A Go `byte`. -/
abbrev Byte := Fin 256

/-- A Go `string`: an immutable sequence of bytes. -/
abbrev GoString := List Byte

/-- The bytes of an ASCII string literal. -/
def goStr (s : String) : GoString :=
  s.toList.map (fun c => ⟨c.toNat % 256, Nat.mod_lt _ (by decide)⟩)

/-- Go `error` values that occur in the two readers. -/
inductive GoError where
  /-- A nonzero `syscall.Errno`. -/
  | errno (code : Nat)
  /-- The value `io.EOF`. -/
  | eof
  /-- The value `io.ErrUnexpectedEOF`. -/
  | unexpectedEOF
  /-- A `*strconv.NumError` (bad digits or out of range). -/
  | numError
  /-- The value `os.ErrNotExist`. -/
  | errNotExist
  /-- An `*os.PathError` wrapping another error. -/
  | pathError (err : GoError)
  /-- Any other error, identified by its message. -/
  | other (msg : String)
  deriving DecidableEq, Repr

/-- Go `os.IsNotExist`: unwrap one `PathError`, then compare with
`os.ErrNotExist` and `syscall.ENOENT` (errno 2). -/
def osIsNotExist (err : GoError) : Bool :=
  let under := match err with
    | .pathError e => e
    | e => e
  match under with
  | .errNotExist => true
  | .errno c => c == 2
  | _ => false

deriving instance DecidableEq for Except

/-- How a call ends: it returns a value, it panics, or the bounded model of
a loop ran out of steps. -/
inductive Outcome (α : Type) where
  | ret (v : α)
  | panic
  | nofuel
  deriving DecidableEq, Repr

/-- Go slice expression `s[k:i]`, `none` for a panic. The bounds are checked
against the length: Go checks them against the capacity, which is at least
the length, so `none` is returned whenever Go panics. -/
def goSlice (s : List Byte) (k i : Nat) : Option (List Byte) :=
  if k ≤ i ∧ i ≤ s.length then some ((s.drop k).take (i - k)) else none

/-- Whether a byte is one of `'0'..'9'`. -/
def isDigit (b : Byte) : Bool := 48 ≤ b.val && b.val ≤ 57

/-- Value of a run of decimal digits, most significant first, continuing
from `acc`; `none` when a byte is not a digit. -/
def digitsValue : Nat → List Byte → Option Nat
  | acc, [] => some acc
  | acc, b :: rest =>
    if isDigit b then digitsValue (acc * 10 + (b.val - 48)) rest else none

/-- Go `strconv.ParseInt(s, 10, 0)` (and so `strconv.Atoi`) on a 64-bit
platform: an optional sign, then one or more decimal digits, the value
within `[-2^63, 2^63 - 1]`; anything else is a `*NumError`. -/
def strconvParseInt (s : GoString) : Except GoError Int :=
  let neg : Bool := match s with
    | b :: _ => b.val == 45
    | [] => false
  let digits : List Byte := match s with
    | b :: rest => if b.val == 45 || b.val == 43 then rest else s
    | [] => []
  match digits with
  | [] => .error .numError
  | _ :: _ =>
    match digitsValue 0 digits with
    | none => .error .numError
    | some n =>
      if neg then
        if n ≤ 9223372036854775808 then .ok (-(n : Int)) else .error .numError
      else
        if n < 9223372036854775808 then .ok (n : Int) else .error .numError

/-- Go `strconv.Atoi`. -/
def strconvAtoi (s : GoString) : Except GoError Int := strconvParseInt s

/-- The loop of `stringsSplit`: it walks the string from its last byte to
its first, `cur` being the field under construction and `done` the fields
after it, so that long strings need no deep recursion. -/
def splitLoop (sep : Byte) : List Byte → List GoString → List Byte → List GoString
  | cur, done, [] => cur :: done
  | cur, done, b :: rest =>
    if b = sep then splitLoop sep [] (cur :: done) rest
    else splitLoop sep (b :: cur) done rest

/-- Go `strings.Split(s, sep)` for a one-byte separator: the maximal runs
between occurrences of `sep`, in order (one more field than separators). -/
def stringsSplit (sep : Byte) (s : GoString) : List GoString :=
  splitLoop sep [] [] s.reverse

/-- The byte `':'`. -/
def colon : Byte := 58

/-- The map `users`: user id to user name. -/
abbrev UserTable := Int → Option GoString

/-- The empty map made by `make(map[int]string)`. -/
def UserTable.empty : UserTable := fun _ => none

/-- Map assignment `users[i] = name`. -/
def UserTable.set (users : UserTable) (i : Int) (name : GoString) : UserTable :=
  fun j => if j = i then some name else users j

/-- Map read `users[i]`: the zero value `""` when the key is missing. -/
def UserTable.get (users : UserTable) (i : Int) : GoString :=
  match users i with
  | some name => name
  | none => []

/-- The scanning loop of `init`: one step for each line the scanner
delivers. -/
def initLoop : UserTable → List GoString → UserTable
  | users, [] => users
  | users, text :: rest =>
    let s := stringsSplit colon text
    if s.length < 3 then initLoop users rest
    else
      match strconvAtoi (s.getD 2 []) with
      | .error _ => initLoop users rest
      | .ok i => initLoop (users.set i (s.getD 0 [])) rest

/-- Constant `bufio.MaxScanTokenSize`, 64 KiB: the largest buffer of a
`bufio.Scanner` on which `Buffer` was never called. -/
def maxScanTokenSize : Nat := 65536

/-- Function `dropCR` of `bufio`: drop one trailing `'\r'`. -/
def dropCR (data : List Byte) : List Byte :=
  if data.getLast? = some 13 then data.dropLast else data

/-- Drop the last element of a list of byte strings when it is empty. -/
def dropEmptyLast (parts : List (List Byte)) : List (List Byte) :=
  if parts.getLast? = some [] then parts.dropLast else parts

/-- The raw lines of a file: the runs of bytes ended by `'\n'`, without that
byte, and the bytes after the last `'\n'` when there are any; that is, the
pieces between the `'\n'` bytes except an empty piece at the end. -/
def rawLines (data : List Byte) : List (List Byte) :=
  dropEmptyLast (stringsSplit 10 data)

/-- The lines of a file as `bufio.ScanLines` defines them: every raw line
without its end-of-line marker, one optional `'\r'` and the `'\n'`. -/
def fileLines (data : List Byte) : List GoString :=
  (rawLines data).map dropCR

/-- The values of `scanner.Text()` over the successful calls of
`scanner.Scan()`, for a default `bufio.Scanner` with `bufio.ScanLines` on a
file with the bytes `data`: the lines of the file in order, up to the first
raw line of `maxScanTokenSize` bytes or more. Such a line fills the buffer
before its `'\n'` is seen; `Scan` then sets `ErrTooLong` and returns false
for good, and `init` never reads `scanner.Err()`. -/
def scannerTexts (data : List Byte) : List GoString :=
  ((rawLines data).takeWhile (fun l => decide (l.length < maxScanTokenSize))).map dropCR

/-- The function `init` of both files: `file` is the result of opening
`/etc/passwd`, on success the bytes of the file. -/
def init (file : Except GoError (List Byte)) : UserTable :=
  match file with
  | .error _ => UserTable.empty
  | .ok data => initLoop UserTable.empty (scannerTexts data)

/-- What one line of the account file contributes, in the words of the
specification: a line with at least three colon-delimited fields whose third
field parses as an integer gives that id and the first field; any other line
gives nothing. -/
def lineEntry (text : GoString) : Option (Int × GoString) :=
  let s := stringsSplit colon text
  if 3 ≤ s.length then
    match strconvAtoi (s.getD 2 []) with
    | .ok i => some (i, s.getD 0 [])
    | .error _ => none
  else none

/-- The three sample lines of the account file. -/
def sampleLines : List GoString :=
  [goStr "alice:x:501:...", goStr "bad-line", goStr "bob:x:502:..."]

/-- Three lines of an account file of which the first two carry the id
501. -/
def repeatedLines : List GoString :=
  [goStr "alice:x:501:a", goStr "carol:x:501:c", goStr "bob:x:502:b"]

/-- The file made of the given lines, each ended by `'\n'`. -/
def fileOf (lines : List GoString) : List Byte :=
  (lines.map (fun l => l ++ [10])).flatten

/-- The account file with the three sample lines. -/
def sampleFile : List Byte := fileOf sampleLines

/-- The account file with the lines `repeatedLines`. -/
def repeatedFile : List Byte := fileOf repeatedLines

/-- A line of 65536 bytes `'x'`. -/
def overlongLine : List Byte := List.replicate 65536 120

/-- An account file of three lines: alice with id 501, the overlong line, bob
with id 502. -/
def overlongFile : List Byte :=
  goStr "alice:x:501:..." ++ 10 :: (overlongLine ++ 10 :: (goStr "bob:x:502:..." ++ [10]))

/-- An account file of three lines: alice with id 501, the overlong line,
carol with id 501. -/
def overlongRepeatedFile : List Byte :=
  goStr "alice:x:501:a" ++ 10 :: (overlongLine ++ 10 :: (goStr "carol:x:501:c" ++ [10]))

/-! ## process_darwin.go -/

namespace Darwin

/-- Constant `_KINFO_STRUCT_SIZE`. -/
def _KINFO_STRUCT_SIZE : Nat := 648

/-- A `[16]byte` array. -/
abbrev Block16 := { l : List Byte // l.length = 16 }

/-- Struct `kinfoProc`, without its blank padding fields. -/
structure kinfoProc where
  Pid : Int
  Comm : Block16
  PPid : Int
  deriving DecidableEq

/-- Struct `DarwinProcess`. -/
structure DarwinProcess where
  pid : Int
  ppid : Int
  uid : Int
  binary : GoString
  deriving DecidableEq, Repr

/-- Method `Pid`. -/
def DarwinProcess.Pid (p : DarwinProcess) : Int := p.pid

/-- Method `PPid`. -/
def DarwinProcess.PPid (p : DarwinProcess) : Int := p.ppid

/-- Method `Executable`. -/
def DarwinProcess.Executable (p : DarwinProcess) : GoString := p.binary

/-! The two remaining accessors of this file, `Uid` and `User`, are declared
with the receiver `*UnixProcess`, the record type of `process_unix.go`;
`DarwinProcess` has no method `Uid` and no method `User`. -/

/-- The counting loop of `darwinCstring`: `i` is advanced for each nonzero
byte and the loop breaks at the first zero byte. -/
def cstringLoop : Nat → List Byte → Nat
  | i, [] => i
  | i, b :: rest => if b ≠ 0 then cstringLoop (i + 1) rest else i

/-- Function `darwinCstring`: `string(s[:i])`. -/
def darwinCstring (s : Block16) : GoString :=
  s.val.take (cstringLoop 0 s.val)

/-- A little-endian `int32`. -/
def int32LE (b0 b1 b2 b3 : Byte) : Int :=
  let u : Nat := b0.val + 256 * b1.val + 65536 * b2.val + 16777216 * b3.val
  if u < 2147483648 then (u : Int) else (u : Int) - 4294967296

/-- The field-by-field decode of `binary.Read` into a `kinfoProc`:
40 blank bytes, `Pid`, 199 blank bytes, `Comm`, 301 blank bytes, `PPid`,
84 blank bytes. -/
def decodeKinfo (w : List Byte) (h : 648 ≤ w.length) : kinfoProc where
  Pid := int32LE (w.getD 40 0) (w.getD 41 0) (w.getD 42 0) (w.getD 43 0)
  Comm := ⟨(w.drop 243).take 16, by simp only [List.length_take, List.length_drop]; omega⟩
  PPid := int32LE (w.getD 560 0) (w.getD 561 0) (w.getD 562 0) (w.getD 563 0)

/-- Go `binary.Read(bytes.NewBuffer(w), binary.LittleEndian, proc)`: the
648 bytes of the struct are read in full or the read fails (`io.EOF` on an
empty buffer, `io.ErrUnexpectedEOF` on a short one). -/
def binaryRead (w : List Byte) : Except GoError kinfoProc :=
  if h : 648 ≤ w.length then .ok (decodeKinfo w h)
  else if w.length = 0 then .error .eof
  else .error .unexpectedEOF

/-- The decode loop of `processes`, `for i := 648; i < buf.Len(); i += 648`,
from the state `k`, `i`, `procs`. Next to the result it returns the bounds
`(k, i)` of every slice `buf.Bytes()[k:i]` it took, in order. -/
def decodeLoop (buf : List Byte) :
    Nat → Nat → Nat → List kinfoProc → List (Nat × Nat) →
    List (Nat × Nat) × Outcome (Option (List kinfoProc) × Option GoError)
  | 0, _, _, _, trace => (trace, .nofuel)
  | fuel + 1, k, i, procs, trace =>
    if i < buf.length then
      match goSlice buf k i with
      | none => (trace ++ [(k, i)], .panic)
      | some w =>
        match binaryRead w with
        | .error err => (trace ++ [(k, i)], .ret (none, some err))
        | .ok proc =>
          decodeLoop buf fuel i (i + _KINFO_STRUCT_SIZE) (procs ++ [proc]) (trace ++ [(k, i)])
    else (trace, .ret (some procs, none))

/-- The literal `&DarwinProcess{pid: ..., ppid: ..., binary: ...}` built for
each decoded record. -/
def ofKinfo (p : kinfoProc) : DarwinProcess :=
  { pid := p.Pid, ppid := p.PPid, uid := 0, binary := darwinCstring p.Comm }

/-- The slices `buf.Bytes()[k:i]` taken by `processes` on the buffer `buf`. -/
def sliceTrace (buf : List Byte) : List (Nat × Nat) :=
  (decodeLoop buf (buf.length + 1) 0 _KINFO_STRUCT_SIZE [] []).1

/-- The body of `processes` after `darwinSyscall` returned `buf`. -/
def processesOn (buf : List Byte) :
    Outcome (Option (List DarwinProcess) × Option GoError) :=
  match (decodeLoop buf (buf.length + 1) 0 _KINFO_STRUCT_SIZE [] []).2 with
  | .ret (some procs, none) => .ret (some (procs.map ofKinfo), none)
  | .ret (_, some err) => .ret (none, some err)
  | .ret (none, none) => .panic
  | .panic => .panic
  | .nofuel => .nofuel

/-- What one `sysctl` call leaves behind: the error code, the value of
`size`, and the bytes written to the buffer that was passed. -/
structure SysctlReply where
  errno : Nat
  size : Nat
  data : List Byte
  deriving DecidableEq, Repr

/-- Function `darwinSyscall`: `query` is the reply to the size query,
`fetch` the reply to the call that passes the buffer. -/
def darwinSyscall (query fetch : SysctlReply) :
    Outcome (Option (List Byte) × Option GoError) :=
  if query.errno ≠ 0 then .ret (none, some (.errno query.errno))
  else if query.size = 0 then .panic
  else
    let bs : List Byte :=
      fetch.data.take query.size ++ List.replicate (query.size - fetch.data.length) 0
    if fetch.errno ≠ 0 then .ret (none, some (.errno fetch.errno))
    else if query.size < fetch.size then .panic
    else .ret (some (bs.take fetch.size), none)

/-- Function `processes`. -/
def processes (query fetch : SysctlReply) :
    Outcome (Option (List DarwinProcess) × Option GoError) :=
  match darwinSyscall query fetch with
  | .ret (_, some err) => .ret (none, some err)
  | .ret (some buf, none) => processesOn buf
  | .ret (none, none) => .panic
  | .panic => .panic
  | .nofuel => .nofuel

/-- The search loop of `findProcess`. -/
def findLoop (pid : Int) : List DarwinProcess → Option DarwinProcess × Option GoError
  | [] => (none, none)
  | p :: rest => if p.Pid = pid then (some p, none) else findLoop pid rest

/-- Function `findProcess`. -/
def findProcess (query fetch : SysctlReply) (pid : Int) :
    Outcome (Option DarwinProcess × Option GoError) :=
  match processes query fetch with
  | .ret (_, some err) => .ret (none, some err)
  | .ret (some ps, none) => .ret (findLoop pid ps)
  | .ret (none, none) => .ret (none, none)
  | .panic => .panic
  | .nofuel => .nofuel

/-- The 648-byte window number `j` of a buffer: bytes `[648*j, 648*(j+1))`. -/
def window (buf : List Byte) (j : Nat) : List Byte :=
  (buf.drop (648 * j)).take 648

/-- A 648-byte record holding `pid` (below 256) in its pid field and zero
bytes elsewhere. -/
def recordWithPid (pid : Byte) : List Byte :=
  List.replicate 40 0 ++ [pid, 0, 0, 0] ++ List.replicate 604 0

/-- A name block: `"ab"`, the terminator, then bytes that are not zero. -/
def sampleBlock : Block16 :=
  ⟨[97, 98, 0, 120, 121, 122, 0, 7, 7, 7, 7, 7, 7, 7, 7, 7], rfl⟩

/-- A reply to the size query announcing `n` bytes. -/
def sizeReply (n : Nat) : SysctlReply := { errno := 0, size := n, data := [] }

/-- A reply to the fetch that delivers the bytes `buf`. -/
def dataReply (buf : List Byte) : SysctlReply :=
  { errno := 0, size := buf.length, data := buf }

/-- The fields of struct `kinfoProc`, in declaration order: a blank
`_ [n]byte` or one of the three named fields. -/
inductive KinfoField where
  | blank (n : Nat)
  | Pid
  | Comm
  | PPid
  deriving DecidableEq, Repr

/-- The declaration of struct `kinfoProc`. -/
def kinfoProcFields : List KinfoField :=
  [.blank 40, .Pid, .blank 199, .Comm, .blank 301, .PPid, .blank 84]

/-- The encoded size of a field: `[n]byte` takes `n` bytes, `int32` four,
`[16]byte` sixteen. -/
def KinfoField.size : KinfoField → Nat
  | .blank n => n
  | .Pid => 4
  | .Comm => 16
  | .PPid => 4

/-- The encoded size of the struct, as `binary.Read` computes it: the sum of
the sizes of its fields, blank ones included. -/
def kinfoDataSize : Nat := (kinfoProcFields.map KinfoField.size).sum

/-- The values of the three named fields while a record is being decoded. -/
structure RawKinfo where
  Pid : Int
  Comm : List Byte
  PPid : Int
  deriving DecidableEq, Repr

/-- The zero value `&kinfoProc{}`. -/
def RawKinfo.zero : RawKinfo := { Pid := 0, Comm := List.replicate 16 0, PPid := 0 }

/-- The field walk of `binary.Read`: each field takes its bytes from the
front of the remaining data; a blank field is skipped, an `int32` is read
little-endian, the byte array is copied. -/
def decodeFields : List KinfoField → List Byte → RawKinfo → RawKinfo
  | [], _, r => r
  | f :: fs, data, r =>
    let r1 : RawKinfo := match f with
      | .blank _ => r
      | .Pid =>
        { r with Pid := int32LE (data.getD 0 0) (data.getD 1 0) (data.getD 2 0) (data.getD 3 0) }
      | .Comm => { r with Comm := data.take 16 }
      | .PPid =>
        { r with PPid := int32LE (data.getD 0 0) (data.getD 1 0) (data.getD 2 0) (data.getD 3 0) }
    decodeFields fs (data.drop f.size) r1

/-- A 648-byte record with the pid bytes `1, 0, 0, 128` (pid `-2^31 + 1`),
the name `"sh"` and the parent pid bytes `255, 255, 255, 255` (`-1`), and
the byte `9` everywhere else. -/
def sampleRecord : List Byte :=
  List.replicate 40 9 ++ [1, 0, 0, 128] ++ List.replicate 199 9
    ++ ([115, 104, 0] ++ List.replicate 13 9) ++ List.replicate 301 9
    ++ [255, 255, 255, 255] ++ List.replicate 84 9

end Darwin

/-! ## process_unix.go -/

namespace Unix

/-- Struct `UnixProcess`. -/
structure UnixProcess where
  pid : Int
  ppid : Int
  state : Nat
  pgrp : Int
  sid : Int
  uid : Int
  binary : GoString
  deriving DecidableEq, Repr

/-- Method `Pid`. -/
def UnixProcess.Pid (p : UnixProcess) : Int := p.pid

/-- Method `PPid`. -/
def UnixProcess.PPid (p : UnixProcess) : Int := p.ppid

/-- Method `Uid`. -/
def UnixProcess.Uid (p : UnixProcess) : Int := p.uid

/-- Method `User`: `users[p.uid]` on the package-level map `users`. -/
def UnixProcess.User (users : UserTable) (p : UnixProcess) : GoString :=
  users.get p.uid

/-- Method `Executable`. -/
def UnixProcess.Executable (p : UnixProcess) : GoString := p.binary

/-- The method `Refresh`, defined outside these two files: it fills in the
record from `/proc/<pid>` and returns an error or `nil`. -/
abbrev Refresh := UnixProcess → UnixProcess × Option GoError

/-- Function `newUnixProcess`: `p := &UnixProcess{pid: pid}` and
`return p, p.Refresh()`. -/
def newUnixProcess (refresh : Refresh) (pid : Int) : UnixProcess × Option GoError :=
  refresh { pid := pid, ppid := 0, state := 0, pgrp := 0, sid := 0, uid := 0, binary := [] }

/-- Function `findProcess`: `stat pid` is the error of
`os.Stat("/proc/<pid>")`, `none` when the call succeeds. -/
def findProcess (stat : Int → Option GoError) (refresh : Refresh) (pid : Int) :
    Option UnixProcess × Option GoError :=
  match stat pid with
  | some err => if osIsNotExist err then (none, none) else (none, some err)
  | none =>
    match newUnixProcess refresh pid with
    | (p, err) => (some p, err)

/-- What the loop reads of an `os.FileInfo`: `Name()` and `IsDir()`. -/
structure FileInfo where
  name : GoString
  isDir : Bool
  deriving DecidableEq, Repr

/-- The inner loop of `processes`, `for _, fi := range fis`, from the
current `results`. -/
def entryLoop (refresh : Refresh) : List UnixProcess → List FileInfo → Outcome (List UnixProcess)
  | results, [] => .ret results
  | results, fi :: rest =>
    if !fi.isDir then entryLoop refresh results rest
    else
      match fi.name with
      | [] => .panic
      | c :: _ =>
        if c.val < 48 || c.val > 57 then entryLoop refresh results rest
        else
          match strconvParseInt fi.name with
          | .error _ => entryLoop refresh results rest
          | .ok pid =>
            match newUnixProcess refresh pid with
            | (_, some _) => entryLoop refresh results rest
            | (p, none) => entryLoop refresh (results ++ [p]) rest

/-- The outer loop of `processes`: each element of the list is what one call
`d.Readdir(10)` returns; a directory stream that has run out answers
`io.EOF`. -/
def readLoop (refresh : Refresh) :
    List UnixProcess → List (List FileInfo × Option GoError) →
    Outcome (Option (List UnixProcess) × Option GoError)
  | results, [] => .ret (some results, none)
  | results, (fis, err) :: rest =>
    if err = some .eof then .ret (some results, none)
    else
      match err with
      | some e => .ret (none, some e)
      | none =>
        match entryLoop refresh results fis with
        | .ret results1 => readLoop refresh results1 rest
        | .panic => .panic
        | .nofuel => .nofuel

/-- Function `processes`: `openProc` is the result of `os.Open("/proc")`, on
success the answers of the successive `Readdir` calls. -/
def processes (openProc : Except GoError (List (List FileInfo × Option GoError)))
    (refresh : Refresh) : Outcome (Option (List UnixProcess) × Option GoError) :=
  match openProc with
  | .error err => .ret (none, some err)
  | .ok d => readLoop refresh [] d

/-- The entries that the enumeration keeps, in the words of the
specification: the entry is a directory, the first character of its name is
a decimal digit, the whole name parses as a base-10 pid, and the
per-process read of that pid succeeds. -/
def keptProcess (refresh : Refresh) (fi : FileInfo) : Option UnixProcess :=
  if fi.isDir && (fi.name.head?.map isDigit).getD false then
    match strconvParseInt fi.name with
    | .ok pid =>
      match newUnixProcess refresh pid with
      | (p, none) => some p
      | (_, some _) => none
    | .error _ => none
  else none

end Unix

/-! ## Sample inputs -/

namespace Unix

/-- A per-process reader for which pid 4 has vanished and every other pid is
a process named `sh`. -/
def sampleRefresh : Refresh := fun p =>
  if p.pid = 4 then (p, some (.pathError .errNotExist))
  else ({ p with ppid := 1, binary := goStr "sh" }, none)

/-- One batch of `/proc` entries: two live pids, a vanished pid, a regular
file, a name that is no number and a name that only starts with a digit. -/
def sampleBatch : List FileInfo :=
  [ { name := goStr "1", isDir := true },
    { name := goStr "self", isDir := true },
    { name := goStr "2", isDir := false },
    { name := goStr "3x", isDir := true },
    { name := goStr "4", isDir := true },
    { name := goStr "5", isDir := true } ]

/-- The record `sampleRefresh` produces for a live pid. -/
def sampleProcess (pid : Int) : UnixProcess :=
  { pid := pid, ppid := 1, state := 0, pgrp := 0, sid := 0, uid := 0, binary := goStr "sh" }

/-- An `os.Stat` for which `/proc/4` does not exist, `/proc/6` is not
accessible (errno 13) and every other directory exists. -/
def sampleStat : Int → Option GoError := fun pid =>
  if pid = 4 then some (.pathError (.errno 2))
  else if pid = 6 then some (.pathError (.errno 13))
  else none

end Unix

/-! ## Properties of the kernel-snapshot reader -/

namespace Darwin

theorem window_length (buf : List Byte) (j : Nat) (h : 648 * (j + 1) ≤ buf.length) :
    (window buf j).length = 648 := by
  unfold window
  simp only [List.length_take, List.length_drop]
  omega

theorem goSlice_window (buf : List Byte) (j : Nat) (h : 648 * (j + 1) ≤ buf.length) :
    goSlice buf (648 * j) (648 * (j + 1)) = some (window buf j) := by
  unfold goSlice window
  have h1 : 648 * j ≤ 648 * (j + 1) ∧ 648 * (j + 1) ≤ buf.length := ⟨by omega, h⟩
  have h2 : 648 * (j + 1) - 648 * j = 648 := by omega
  rw [if_pos h1, h2]

theorem binaryRead_window (buf : List Byte) (j : Nat) (h : 648 * (j + 1) ≤ buf.length) :
    ∃ r, binaryRead (window buf j) = .ok r := by
  have hl := window_length buf j h
  refine ⟨decodeKinfo (window buf j) (by omega), ?_⟩
  unfold binaryRead
  rw [dif_pos (by omega)]

/-- The decode loop, started at window `j` with `m` windows to go, takes the
slices `[648*t, 648*(t+1))` for `t = j, ..., j+m-1`, decodes each of them
and returns; `m + 1` steps are enough. -/
theorem decodeLoop_spec (buf : List Byte) :
    ∀ (m fuel j : Nat) (procs : List kinfoProc) (trace : List (Nat × Nat)),
      m < fuel → (m = 0 ∨ 648 * (j + m) < buf.length) → buf.length ≤ 648 * (j + m + 1) →
      ∃ rs : List kinfoProc,
        decodeLoop buf fuel (648 * j) (648 * (j + 1)) procs trace
            = (trace ++ (List.range' j m).map (fun t => (648 * t, 648 * (t + 1))),
               .ret (some (procs ++ rs), none))
          ∧ rs.length = m
          ∧ ∀ t, t < m → ∃ r, binaryRead (window buf (j + t)) = .ok r ∧ rs[t]? = some r := by
  intro m
  induction m with
  | zero =>
    intro fuel j procs trace hf _ hstop
    obtain ⟨f, rfl⟩ : ∃ f, fuel = f + 1 := ⟨fuel - 1, by omega⟩
    refine ⟨[], ?_, rfl, ?_⟩
    · have hn : ¬ (648 * (j + 1) < buf.length) := by omega
      simp [decodeLoop, hn]
    · intro t ht; omega
  | succ m ih =>
    intro fuel j procs trace hf hcont hstop
    obtain ⟨f, rfl⟩ : ∃ f, fuel = f + 1 := ⟨fuel - 1, by omega⟩
    have hlt : 648 * (j + 1) < buf.length := by omega
    have hle : 648 * (j + 1) ≤ buf.length := by omega
    obtain ⟨r, hr⟩ := binaryRead_window buf j hle
    have hcont1 : m = 0 ∨ 648 * (j + 1 + m) < buf.length := by
      right; omega
    have hstop1 : buf.length ≤ 648 * (j + 1 + m + 1) := by omega
    obtain ⟨rs, hrs, hlen, hget⟩ :=
      ih f (j + 1) (procs ++ [r]) (trace ++ [(648 * j, 648 * (j + 1))]) (by omega) hcont1 hstop1
    refine ⟨r :: rs, ?_, by simp [hlen], ?_⟩
    · have hstep : 648 * (j + 1) + _KINFO_STRUCT_SIZE = 648 * (j + 1 + 1) := by
        unfold _KINFO_STRUCT_SIZE; omega
      rw [decodeLoop, if_pos hlt, goSlice_window buf j hle]
      simp only [hr]
      rw [hstep, hrs]
      simp [List.range'_succ]
    · intro t ht
      cases t with
      | zero => exact ⟨r, by simpa using hr, by simp⟩
      | succ t =>
        obtain ⟨r1, h1, h2⟩ := hget t (by omega)
        refine ⟨r1, ?_, by simpa using h2⟩
        have : j + (t + 1) = j + 1 + t := by omega
        rw [this]; exact h1

/-- What `processes` does with a buffer of any length `M`: with
`n = (M - 1) / 648` it takes the slices `[648*t, 648*(t+1))` for `t < n`,
and returns the `n` records decoded from them, in order. -/
theorem processesOn_spec (buf : List Byte) :
    ∃ rs : List kinfoProc,
      processesOn buf = .ret (some (rs.map ofKinfo), none)
        ∧ sliceTrace buf
            = (List.range' 0 ((buf.length - 1) / 648)).map (fun t => (648 * t, 648 * (t + 1)))
        ∧ rs.length = (buf.length - 1) / 648
        ∧ ∀ t, t < (buf.length - 1) / 648 →
            ∃ r, binaryRead (window buf t) = .ok r ∧ rs[t]? = some r := by
  obtain ⟨rs, hrs, hlen, hget⟩ :=
    decodeLoop_spec buf ((buf.length - 1) / 648) (buf.length + 1) 0 [] []
      (by omega) (by omega) (by omega)
  refine ⟨rs, ?_, ?_, hlen, ?_⟩
  · unfold processesOn
    have h0 : (648 : Nat) * (0 + 1) = _KINFO_STRUCT_SIZE := rfl
    have h1 : (648 : Nat) * 0 = 0 := rfl
    rw [h0, h1] at hrs
    rw [hrs]
    simp
  · unfold sliceTrace
    have h0 : (648 : Nat) * (0 + 1) = _KINFO_STRUCT_SIZE := rfl
    have h1 : (648 : Nat) * 0 = 0 := rfl
    rw [h0, h1] at hrs
    rw [hrs]
    simp
  · intro t ht
    obtain ⟨r, h1, h2⟩ := hget t ht
    exact ⟨r, by simpa using h1, h2⟩

theorem processes_of_buffer (query fetch : SysctlReply) (buf : List Byte)
    (hsys : darwinSyscall query fetch = .ret (some buf, none)) :
    processes query fetch = processesOn buf := by
  unfold processes
  rw [hsys]

theorem darwinSyscall_replies (buf : List Byte) (hne : 0 < buf.length) :
    darwinSyscall (sizeReply buf.length) (dataReply buf) = .ret (some buf, none) := by
  have h0 : buf.length ≠ 0 := by omega
  simp [darwinSyscall, sizeReply, dataReply, h0]

end Darwin

namespace Darwin

/-- C1, as stated, fails: on a buffer of two full records, the first holding
pid 1 and the second pid 2, `processes` returns one process; it is the
record decoded from bytes `[0, 648)` (pid 1), and it differs from the record
decoded from bytes `[648, 1296)` (pid 2), the window the claim names for
process 0. -/
theorem processes_first_record_not_skipped :
    darwinSyscall (sizeReply 1296) (dataReply (recordWithPid 1 ++ recordWithPid 2))
        = .ret (some (recordWithPid 1 ++ recordWithPid 2), none)
      ∧ ∃ ps r0 r1,
          processes (sizeReply 1296) (dataReply (recordWithPid 1 ++ recordWithPid 2))
            = .ret (some ps, none)
          ∧ goSlice (recordWithPid 1 ++ recordWithPid 2) 0 648
              = some (window (recordWithPid 1 ++ recordWithPid 2) 0)
          ∧ goSlice (recordWithPid 1 ++ recordWithPid 2) 648 1296
              = some (window (recordWithPid 1 ++ recordWithPid 2) 1)
          ∧ binaryRead (window (recordWithPid 1 ++ recordWithPid 2) 0) = .ok r0
          ∧ binaryRead (window (recordWithPid 1 ++ recordWithPid 2) 1) = .ok r1
          ∧ ps[0]? = some (ofKinfo r0)
          ∧ ps[0]? ≠ some (ofKinfo r1) := by
  refine ⟨by decide!, [{ pid := 1, ppid := 0, uid := 0, binary := [] }],
    decodeKinfo (window (recordWithPid 1 ++ recordWithPid 2) 0) (by decide!),
    decodeKinfo (window (recordWithPid 1 ++ recordWithPid 2) 1) (by decide!),
    by decide!, by decide!, by decide!, by decide!, by decide!, by decide!, by decide!⟩

/-- C1 (amended): for every buffer returned by the system call, `processes`
returns a list whose `j`-th process (0-based) is the record decoded from the
648-byte window at bytes `[648*j, 648*(j+1))`; decoding starts at the first
record, which is process 0 whenever the buffer is longer than one record. -/
theorem processes_record_window (query fetch : SysctlReply) (buf : List Byte)
    (hsys : darwinSyscall query fetch = .ret (some buf, none)) :
    ∃ ps : List DarwinProcess,
      processes query fetch = .ret (some ps, none)
        ∧ (648 < buf.length → 0 < ps.length)
        ∧ ∀ j, j < ps.length →
            goSlice buf (648 * j) (648 * (j + 1)) = some (window buf j)
              ∧ ∃ r, binaryRead (window buf j) = .ok r ∧ ps[j]? = some (ofKinfo r) := by
  obtain ⟨rs, hps, _, hlen, hget⟩ := processesOn_spec buf
  refine ⟨rs.map ofKinfo, ?_, ?_, ?_⟩
  · rw [processes_of_buffer query fetch buf hsys, hps]
  · intro h
    rw [List.length_map, hlen]
    omega
  · intro j hj
    rw [List.length_map, hlen] at hj
    obtain ⟨r, h1, h2⟩ := hget j hj
    refine ⟨goSlice_window buf j (by omega), r, h1, ?_⟩
    simp [h2]

theorem processes_record_window_witness :
    darwinSyscall (sizeReply 1296) (dataReply (recordWithPid 1 ++ recordWithPid 2))
        = .ret (some (recordWithPid 1 ++ recordWithPid 2), none)
      ∧ ∃ ps : List DarwinProcess,
          processes (sizeReply 1296) (dataReply (recordWithPid 1 ++ recordWithPid 2))
              = .ret (some ps, none)
            ∧ (648 < (recordWithPid 1 ++ recordWithPid 2).length → 0 < ps.length)
            ∧ ∀ j, j < ps.length →
                goSlice (recordWithPid 1 ++ recordWithPid 2) (648 * j) (648 * (j + 1))
                    = some (window (recordWithPid 1 ++ recordWithPid 2) j)
                  ∧ ∃ r, binaryRead (window (recordWithPid 1 ++ recordWithPid 2) j) = .ok r
                      ∧ ps[j]? = some (ofKinfo r) :=
  ⟨by decide!, processes_record_window _ _ _ (by decide!)⟩

end Darwin

namespace Darwin

/-- C2: `processes` on a buffer of exactly `K + 1` full records (and no
trailing byte) returns `K` processes, one fewer than the records present:
the loop condition `i < buf.Len()` stops before the last window. -/
theorem processes_full_records_count (query fetch : SysctlReply) (buf : List Byte) (K : Nat)
    (hsys : darwinSyscall query fetch = .ret (some buf, none))
    (hlen : buf.length = 648 * (K + 1)) :
    ∃ ps : List DarwinProcess,
      processes query fetch = .ret (some ps, none) ∧ ps.length = K := by
  obtain ⟨rs, hps, _, hl, _⟩ := processesOn_spec buf
  refine ⟨rs.map ofKinfo, ?_, ?_⟩
  · rw [processes_of_buffer query fetch buf hsys, hps]
  · rw [List.length_map, hl]
    omega

theorem processes_full_records_count_witness :
    darwinSyscall (sizeReply 648) (dataReply (recordWithPid 1))
        = .ret (some (recordWithPid 1), none)
      ∧ (recordWithPid 1).length = 648 * (0 + 1)
      ∧ ∃ ps : List DarwinProcess,
          processes (sizeReply 648) (dataReply (recordWithPid 1)) = .ret (some ps, none)
            ∧ ps.length = 0 :=
  ⟨by decide!, by decide!,
    processes_full_records_count _ _ (recordWithPid 1) 0 (by decide!) (by decide!)⟩

/-- C3: on a buffer of length `M = 648*K + r` with `0 < r < 648`, every
slice `buf[k:i]` taken by the decode loop has `k ≤ i ≤ M`, and `processes`
returns exactly `K` processes, the `j`-th decoded from the whole record at
bytes `[648*j, 648*(j+1))`. -/
theorem processes_truncated_buffer (query fetch : SysctlReply) (buf : List Byte) (K r : Nat)
    (hsys : darwinSyscall query fetch = .ret (some buf, none))
    (hr0 : 0 < r) (hr : r < 648) (hlen : buf.length = 648 * K + r) :
    (∀ ki, ki ∈ sliceTrace buf → ki.1 ≤ ki.2 ∧ ki.2 ≤ buf.length)
      ∧ ∃ ps : List DarwinProcess,
          processes query fetch = .ret (some ps, none)
            ∧ ps.length = K
            ∧ ∀ j, j < K →
                ∃ rec, binaryRead (window buf j) = .ok rec ∧ ps[j]? = some (ofKinfo rec) := by
  obtain ⟨rs, hps, htr, hl, hget⟩ := processesOn_spec buf
  have hn : (buf.length - 1) / 648 = K := by omega
  rw [hn] at htr hl hget
  refine ⟨?_, rs.map ofKinfo, ?_, ?_, ?_⟩
  · intro ki hki
    rw [htr, List.mem_map] at hki
    obtain ⟨t, ht, rfl⟩ := hki
    rw [List.mem_range'_1] at ht
    constructor
    · show 648 * t ≤ 648 * (t + 1)
      omega
    · show 648 * (t + 1) ≤ buf.length
      omega
  · rw [processes_of_buffer query fetch buf hsys, hps]
  · rw [List.length_map, hl]
  · intro j hj
    obtain ⟨rec, h1, h2⟩ := hget j hj
    exact ⟨rec, h1, by simp [h2]⟩

theorem processes_truncated_buffer_witness :
    darwinSyscall (sizeReply 649) (dataReply (recordWithPid 1 ++ [7]))
        = .ret (some (recordWithPid 1 ++ [7]), none)
      ∧ (recordWithPid 1 ++ [7]).length = 648 * 1 + 1
      ∧ (∀ ki, ki ∈ sliceTrace (recordWithPid 1 ++ [7]) →
          ki.1 ≤ ki.2 ∧ ki.2 ≤ (recordWithPid 1 ++ [7]).length)
      ∧ ∃ ps : List DarwinProcess,
          processes (sizeReply 649) (dataReply (recordWithPid 1 ++ [7])) = .ret (some ps, none)
            ∧ ps.length = 1
            ∧ ∀ j, j < 1 →
                ∃ rec, binaryRead (window (recordWithPid 1 ++ [7]) j) = .ok rec
                  ∧ ps[j]? = some (ofKinfo rec) :=
  ⟨by decide!, by decide!,
    processes_truncated_buffer _ _ (recordWithPid 1 ++ [7]) 1 1 (by decide!)
      (by decide) (by decide) (by decide!)⟩

theorem findLoop_eq_find (pid : Int) (ps : List DarwinProcess) :
    findLoop pid ps = (ps.find? (fun p => decide (p.Pid = pid)), none) := by
  induction ps with
  | nil => rfl
  | cons p rest ih =>
    by_cases h : p.Pid = pid
    · simp [findLoop, List.find?, h]
    · simp [findLoop, List.find?, h, ih]

/-- C4: when `processes` succeeds with the list `ps`, `findProcess pid`
returns, with a nil error, the first element of `ps` whose `Pid()` is `pid`
(an element of the enumeration, so with its pid, parent pid and executable
name), and it returns the absent result `(nil, nil)` exactly when no element
of `ps` has that pid. -/
theorem findProcess_agrees_with_processes (query fetch : SysctlReply)
    (ps : List DarwinProcess) (pid : Int)
    (hps : processes query fetch = .ret (some ps, none)) :
    findProcess query fetch pid = .ret (ps.find? (fun p => decide (p.Pid = pid)), none)
      ∧ (findProcess query fetch pid = .ret (none, none) ↔ ∀ p, p ∈ ps → p.Pid ≠ pid)
      ∧ (∀ p, findProcess query fetch pid = .ret (some p, none) →
          p ∈ ps ∧ p.Pid = pid
            ∧ ∃ front back, ps = front ++ p :: back ∧ ∀ q, q ∈ front → q.Pid ≠ pid) := by
  have hfind : findProcess query fetch pid
      = .ret (ps.find? (fun p => decide (p.Pid = pid)), none) := by
    unfold findProcess
    rw [hps]
    simp only [findLoop_eq_find]
  refine ⟨hfind, ?_, ?_⟩
  · rw [hfind]
    constructor
    · intro h p hp
      have h1 : ps.find? (fun p => decide (p.Pid = pid)) = none := by
        simpa using h
      rw [List.find?_eq_none] at h1
      simpa using h1 p hp
    · intro h
      have h1 : ps.find? (fun p => decide (p.Pid = pid)) = none := by
        rw [List.find?_eq_none]
        intro p hp
        simpa using h p hp
      rw [h1]
  · intro p hp
    rw [hfind] at hp
    have h1 : ps.find? (fun p => decide (p.Pid = pid)) = some p := by
      simpa using hp
    rw [List.find?_eq_some] at h1
    obtain ⟨hpid, front, back, hsplit, hfront⟩ := h1
    refine ⟨?_, by simpa using hpid, front, back, hsplit, ?_⟩
    · rw [hsplit]; simp
    · intro q hq
      simpa using hfront q hq

theorem findProcess_agrees_with_processes_witness :
    processes (sizeReply 1945)
        (dataReply (recordWithPid 1 ++ recordWithPid 2 ++ recordWithPid 1 ++ [0]))
        = .ret (some [{ pid := 1, ppid := 0, uid := 0, binary := [] },
                      { pid := 2, ppid := 0, uid := 0, binary := [] },
                      { pid := 1, ppid := 0, uid := 0, binary := [] }], none)
      ∧ findProcess (sizeReply 1945)
          (dataReply (recordWithPid 1 ++ recordWithPid 2 ++ recordWithPid 1 ++ [0])) 2
        = .ret (some { pid := 2, ppid := 0, uid := 0, binary := [] }, none) :=
  ⟨by decide!,
    (findProcess_agrees_with_processes _ _
      [{ pid := 1, ppid := 0, uid := 0, binary := [] },
       { pid := 2, ppid := 0, uid := 0, binary := [] },
       { pid := 1, ppid := 0, uid := 0, binary := [] }] 2 (by decide!)).1⟩

end Darwin

/-! ## Properties of the proc-filesystem reader -/

namespace Unix

theorem entryLoop_eq_filterMap (refresh : Refresh) :
    ∀ (fis : List FileInfo) (results : List UnixProcess),
      (∀ fi, fi ∈ fis → fi.isDir = true → fi.name ≠ []) →
      entryLoop refresh results fis = .ret (results ++ fis.filterMap (keptProcess refresh)) := by
  intro fis
  induction fis with
  | nil => intro results _; simp [entryLoop]
  | cons fi rest ih =>
    intro results hne
    have hrest : ∀ fi, fi ∈ rest → fi.isDir = true → fi.name ≠ [] :=
      fun x hx => hne x (List.mem_cons_of_mem _ hx)
    have hfi := hne fi (List.mem_cons_self _ _)
    cases hdir : fi.isDir with
    | false =>
      have hk : keptProcess refresh fi = none := by simp [keptProcess, hdir]
      rw [entryLoop]
      simp [hdir, hk, ih results hrest]
    | true =>
      cases hname : fi.name with
      | nil => exact absurd hname (hfi hdir)
      | cons c cs =>
        by_cases hdig : isDigit c = true
        · have hc : ¬ (c.val < 48 ∨ c.val > 57) := by
            simp only [isDigit, Bool.and_eq_true, decide_eq_true_eq] at hdig
            omega
          cases hparse : strconvParseInt (c :: cs) with
          | error e =>
            have hk : keptProcess refresh fi = none := by
              simp [keptProcess, hname, hparse]
            rw [entryLoop]
            simp [hdir, hname, hc, hparse, hk, ih results hrest]
          | ok pid =>
            cases hnew : newUnixProcess refresh pid with
            | mk q err =>
              cases err with
              | none =>
                have hk : keptProcess refresh fi = some q := by
                  simp [keptProcess, hdir, hname, hdig, hparse, hnew]
                rw [entryLoop]
                simp [hdir, hname, hc, hparse, hnew, hk, ih (results ++ [q]) hrest]
              | some e =>
                have hk : keptProcess refresh fi = none := by
                  simp [keptProcess, hname, hparse, hnew]
                rw [entryLoop]
                simp [hdir, hname, hc, hparse, hnew, hk, ih results hrest]
        · have hc : c.val < 48 ∨ c.val > 57 := by
            simp only [isDigit, Bool.and_eq_true, decide_eq_true_eq] at hdig
            omega
          have hk : keptProcess refresh fi = none := by
            simp [keptProcess, hname, hdig]
          rw [entryLoop]
          simp [hdir, hname, hc, hk, ih results hrest]

theorem readLoop_batches (refresh : Refresh) :
    ∀ (batches : List (List FileInfo)) (results : List UnixProcess)
      (tail : List (List FileInfo × Option GoError)),
      (∀ fis, fis ∈ batches → ∀ fi, fi ∈ fis → fi.isDir = true → fi.name ≠ []) →
      readLoop refresh results (batches.map (fun fis => (fis, none)) ++ tail)
        = readLoop refresh (results ++ batches.flatten.filterMap (keptProcess refresh)) tail := by
  intro batches
  induction batches with
  | nil => intro results tail _; simp
  | cons fis rest ih =>
    intro results tail hne
    have hfis := hne fis (List.mem_cons_self _ _)
    have hrest : ∀ b, b ∈ rest → ∀ fi, fi ∈ b → fi.isDir = true → fi.name ≠ [] :=
      fun b hb => hne b (List.mem_cons_of_mem _ hb)
    rw [List.map_cons, List.cons_append, readLoop]
    simp only [entryLoop_eq_filterMap refresh fis results hfis]
    rw [if_neg (by simp), ih _ tail hrest]
    simp

end Unix

namespace Unix

/-- C5: on a successful listing of `/proc` (batches without error, then
`io.EOF`) whose directory entries have non-empty names, `processes` returns,
in listing order, exactly the processes of the kept entries; an entry is
kept exactly when it is a directory, the first character of its name is a
decimal digit, its whole name parses as a base-10 pid and the per-process
read of that pid succeeds. Every other entry is skipped. -/
theorem processes_keeps_readable_pid_dirs (refresh : Refresh)
    (batches : List (List FileInfo)) (last : List FileInfo)
    (rest : List (List FileInfo × Option GoError))
    (hne : ∀ fis, fis ∈ batches → ∀ fi, fi ∈ fis → fi.isDir = true → fi.name ≠ []) :
    processes (.ok (batches.map (fun fis => (fis, none)) ++ (last, some .eof) :: rest)) refresh
        = .ret (some (batches.flatten.filterMap (keptProcess refresh)), none)
      ∧ ∀ fi p, keptProcess refresh fi = some p ↔
          (fi.isDir = true
            ∧ (∃ c cs, fi.name = c :: cs ∧ 48 ≤ c.val ∧ c.val ≤ 57)
            ∧ ∃ pid, strconvParseInt fi.name = .ok pid
                ∧ newUnixProcess refresh pid = (p, none)) := by
  constructor
  · unfold processes
    simp only []
    rw [readLoop_batches refresh batches [] _ hne, readLoop]
    simp
  · intro fi p
    unfold keptProcess
    cases hdir : fi.isDir with
    | false => simp
    | true =>
      cases hname : fi.name with
      | nil => simp
      | cons c cs =>
        by_cases hdig : isDigit c = true
        · have hc : 48 ≤ c.val ∧ c.val ≤ 57 := by
            simpa [isDigit] using hdig
          cases hparse : strconvParseInt (c :: cs) with
          | error e => simp [hdig]
          | ok pid =>
            cases hnew : newUnixProcess refresh pid with
            | mk q err =>
              cases err with
              | none => simp [hdig, hc, hnew]
              | some e => simp [hdig, hnew]
        · have hc : ¬ (48 ≤ c.val ∧ c.val ≤ 57) := by
            simpa [isDigit] using hdig
          simp only [List.head?_cons, Option.map_some', Option.getD_some, hdig,
            Bool.true_and, Bool.false_eq_true, if_false]
          constructor
          · intro h; cases h
          rintro ⟨_, ⟨c1, cs1, heq, h1, h2⟩, _⟩
          simp only [List.cons.injEq] at heq
          obtain ⟨rfl, _⟩ := heq
          exact absurd ⟨h1, h2⟩ hc

theorem processes_keeps_readable_pid_dirs_witness :
    (∀ fis, fis ∈ [sampleBatch, sampleBatch] →
        ∀ fi, fi ∈ fis → fi.isDir = true → fi.name ≠ [])
      ∧ processes
          (.ok ([sampleBatch, sampleBatch].map (fun fis => (fis, none)) ++ ([], some .eof) :: []))
          sampleRefresh
        = .ret (some [sampleProcess 1, sampleProcess 5, sampleProcess 1, sampleProcess 5], none) :=
  ⟨by decide,
    (processes_keeps_readable_pid_dirs sampleRefresh [sampleBatch, sampleBatch] [] []
      (by decide)).1⟩

/-- C6: `findProcess pid` returns `(nil, nil)` when the existence check fails
with a does-not-exist error, `(nil, err)` when it fails with any other error
`err`, and otherwise exactly the pair that `newUnixProcess pid` returns, so
that an error of the per-process parse is never the absent result. -/
theorem findProcess_follows_stat (stat : Int → Option GoError) (refresh : Refresh) (pid : Int) :
    (∀ err, stat pid = some err → osIsNotExist err = true →
        findProcess stat refresh pid = (none, none))
      ∧ (∀ err, stat pid = some err → osIsNotExist err = false →
          findProcess stat refresh pid = (none, some err))
      ∧ (stat pid = none →
          findProcess stat refresh pid
            = (some (newUnixProcess refresh pid).1, (newUnixProcess refresh pid).2))
      ∧ (stat pid = none → ∀ err, (newUnixProcess refresh pid).2 = some err →
          findProcess stat refresh pid ≠ (none, none)
            ∧ (findProcess stat refresh pid).2 = some err) := by
  refine ⟨?_, ?_, ?_, ?_⟩
  · intro err hs hn
    simp [findProcess, hs, hn]
  · intro err hs hn
    simp [findProcess, hs, hn]
  · intro hs
    simp [findProcess, hs]
  · intro hs err he
    simp [findProcess, hs, he]

theorem findProcess_follows_stat_witness :
    findProcess sampleStat sampleRefresh 4 = (none, none)
      ∧ findProcess sampleStat sampleRefresh 6 = (none, some (.pathError (.errno 13)))
      ∧ findProcess sampleStat sampleRefresh 5 = (some (sampleProcess 5), none)
      ∧ findProcess (fun _ => none) sampleRefresh 4
          ≠ (none, none) :=
  ⟨(findProcess_follows_stat sampleStat sampleRefresh 4).1 (.pathError (.errno 2))
      (by decide) (by decide),
   (findProcess_follows_stat sampleStat sampleRefresh 6).2.1 (.pathError (.errno 13))
      (by decide) (by decide),
   (findProcess_follows_stat sampleStat sampleRefresh 5).2.2.1 (by decide),
   ((findProcess_follows_stat (fun _ => none) sampleRefresh 4).2.2.2 rfl
      (.pathError .errNotExist) (by decide)).1⟩

end Unix

/-- C7: a reader failure is fatal. Kernel-snapshot path: when the first
system call reports a nonzero error code, or the first succeeds and the
second (made with the buffer of the announced, nonzero size) reports one,
`processes` returns no list with that error and `findProcess` returns no
process with the same error. Proc-filesystem path: when opening `/proc`
fails, or a batch of the listing fails with an error other than `io.EOF`
after any number of good batches, `processes` returns no results with that
error. -/
theorem reader_failure_is_fatal :
    (∀ (query fetch : Darwin.SysctlReply) (pid : Int), query.errno ≠ 0 →
        Darwin.processes query fetch = .ret (none, some (.errno query.errno))
          ∧ Darwin.findProcess query fetch pid = .ret (none, some (.errno query.errno)))
      ∧ (∀ (query fetch : Darwin.SysctlReply) (pid : Int),
          query.errno = 0 → 0 < query.size → fetch.errno ≠ 0 →
          Darwin.processes query fetch = .ret (none, some (.errno fetch.errno))
            ∧ Darwin.findProcess query fetch pid = .ret (none, some (.errno fetch.errno)))
      ∧ (∀ (err : GoError) (refresh : Unix.Refresh),
          Unix.processes (.error err) refresh = .ret (none, some err))
      ∧ (∀ (refresh : Unix.Refresh) (batches : List (List Unix.FileInfo))
            (fis : List Unix.FileInfo) (err : GoError)
            (rest : List (List Unix.FileInfo × Option GoError)),
          (∀ b, b ∈ batches → ∀ fi, fi ∈ b → fi.isDir = true → fi.name ≠ []) →
          err ≠ .eof →
          Unix.processes (.ok (batches.map (fun b => (b, none)) ++ (fis, some err) :: rest))
              refresh
            = .ret (none, some err)) := by
  refine ⟨?_, ?_, ?_, ?_⟩
  · intro query fetch pid h
    have hsys : Darwin.darwinSyscall query fetch = .ret (none, some (.errno query.errno)) := by
      simp [Darwin.darwinSyscall, h]
    have hp : Darwin.processes query fetch = .ret (none, some (.errno query.errno)) := by
      simp [Darwin.processes, hsys]
    exact ⟨hp, by simp [Darwin.findProcess, hp]⟩
  · intro query fetch pid h0 hsz h
    have hsz0 : query.size ≠ 0 := by omega
    have hsys : Darwin.darwinSyscall query fetch = .ret (none, some (.errno fetch.errno)) := by
      simp [Darwin.darwinSyscall, h0, hsz0, h]
    have hp : Darwin.processes query fetch = .ret (none, some (.errno fetch.errno)) := by
      simp [Darwin.processes, hsys]
    exact ⟨hp, by simp [Darwin.findProcess, hp]⟩
  · intro err refresh
    rfl
  · intro refresh batches fis err rest hne herr
    unfold Unix.processes
    simp only []
    rw [Unix.readLoop_batches refresh batches [] _ hne, Unix.readLoop]
    simp [herr]

theorem reader_failure_is_fatal_witness :
    (Darwin.processes { errno := 1, size := 0, data := [] } (Darwin.dataReply [])
          = .ret (none, some (.errno 1))
        ∧ Darwin.findProcess { errno := 1, size := 0, data := [] } (Darwin.dataReply []) 1
          = .ret (none, some (.errno 1)))
      ∧ (Darwin.processes (Darwin.sizeReply 4) { errno := 12, size := 4, data := [1, 2] }
          = .ret (none, some (.errno 12))
        ∧ Darwin.findProcess (Darwin.sizeReply 4) { errno := 12, size := 4, data := [1, 2] } 1
          = .ret (none, some (.errno 12)))
      ∧ Unix.processes (.error (.pathError (.errno 13))) Unix.sampleRefresh
          = .ret (none, some (.pathError (.errno 13)))
      ∧ Unix.processes
          (.ok ([Unix.sampleBatch].map (fun b => (b, none))
            ++ ([], some (.errno 5)) :: [(Unix.sampleBatch, none)]))
          Unix.sampleRefresh
          = .ret (none, some (.errno 5)) :=
  ⟨reader_failure_is_fatal.1 _ _ 1 (by decide),
   reader_failure_is_fatal.2.1 _ _ 1 (by decide) (by decide) (by decide),
   reader_failure_is_fatal.2.2.1 _ _,
   reader_failure_is_fatal.2.2.2 Unix.sampleRefresh [Unix.sampleBatch] [] (.errno 5) _
     (by decide) (by decide)⟩

/-! ## Properties of the account table -/

theorem splitLoop_snoc (sep b : Byte) :
    ∀ (r cur : List Byte) (done : List GoString),
      splitLoop sep cur done (r ++ [b])
        = match splitLoop sep cur done r with
          | [] => [[b]]
          | f :: fs => if b = sep then [] :: f :: fs else (b :: f) :: fs := by
  intro r
  induction r with
  | nil =>
    intro cur done
    by_cases hb : b = sep
    · simp [splitLoop, hb]
    · simp [splitLoop, hb]
  | cons c more ih =>
    intro cur done
    rw [List.cons_append, splitLoop, splitLoop]
    by_cases hc : c = sep
    · rw [if_pos hc, if_pos hc, ih]
    · rw [if_neg hc, if_neg hc, ih]

theorem splitLoop_ne_nil (sep : Byte) :
    ∀ (r cur : List Byte) (done : List GoString), splitLoop sep cur done r ≠ [] := by
  intro r
  induction r with
  | nil => intro cur done; simp [splitLoop]
  | cons c more ih =>
    intro cur done
    rw [splitLoop]
    by_cases hc : c = sep
    · rw [if_pos hc]; exact ih _ _
    · rw [if_neg hc]; exact ih _ _

theorem stringsSplit_nil (sep : Byte) : stringsSplit sep [] = [[]] := rfl

theorem stringsSplit_cons (sep b : Byte) (s : GoString) :
    stringsSplit sep (b :: s)
      = if b = sep then [] :: stringsSplit sep s
        else
          match stringsSplit sep s with
          | [] => [[b]]
          | f :: fs => (b :: f) :: fs := by
  unfold stringsSplit
  rw [List.reverse_cons, splitLoop_snoc]
  cases h : splitLoop sep [] [] s.reverse with
  | nil => exact absurd h (splitLoop_ne_nil sep s.reverse [] [])
  | cons f fs => by_cases hb : b = sep <;> simp [hb]

theorem stringsSplit_ne_nil (sep : Byte) (s : GoString) : stringsSplit sep s ≠ [] := by
  cases s with
  | nil => simp [stringsSplit_nil]
  | cons b rest =>
    rw [stringsSplit_cons]
    by_cases hb : b = sep
    · rw [if_pos hb]; simp
    · rw [if_neg hb]
      cases stringsSplit sep rest <;> simp

theorem stringsSplit_append_sep (sep : Byte) (f rest : GoString) :
    stringsSplit sep (f ++ sep :: rest) = stringsSplit sep f ++ stringsSplit sep rest := by
  induction f with
  | nil => rw [List.nil_append, stringsSplit_cons, if_pos rfl, stringsSplit_nil]; rfl
  | cons b more ih =>
    rw [List.cons_append, stringsSplit_cons, stringsSplit_cons, ih]
    by_cases hb : b = sep
    · rw [if_pos hb, if_pos hb]; rfl
    · rw [if_neg hb, if_neg hb]
      cases h : stringsSplit sep more with
      | nil => exact absurd h (stringsSplit_ne_nil sep more)
      | cons g gs => rfl

theorem stringsSplit_no_sep (sep : Byte) (l : GoString) (h : sep ∉ l) :
    stringsSplit sep l = [l] := by
  induction l with
  | nil => rfl
  | cons b rest ih =>
    have hb : b ≠ sep := fun hb => h (by simp [hb])
    have hrest : sep ∉ rest := fun hr => h (List.mem_cons_of_mem _ hr)
    rw [stringsSplit_cons, if_neg hb, ih hrest]

theorem dropEmptyLast_cons (x : List Byte) (parts : List (List Byte)) (h : parts ≠ []) :
    dropEmptyLast (x :: parts) = x :: dropEmptyLast parts := by
  cases parts with
  | nil => exact absurd rfl h
  | cons y ys =>
    unfold dropEmptyLast
    rw [List.getLast?_cons_cons, List.dropLast_cons₂]
    by_cases hl : (y :: ys).getLast? = some []
    · rw [if_pos hl, if_pos hl]
    · rw [if_neg hl, if_neg hl]

theorem dropEmptyLast_append (front parts : List (List Byte)) (h : parts ≠ []) :
    dropEmptyLast (front ++ parts) = front ++ dropEmptyLast parts := by
  induction front with
  | nil => rfl
  | cons x more ih =>
    rw [List.cons_append, dropEmptyLast_cons x (more ++ parts) (by simp [h]), ih,
      List.cons_append]

theorem initLoop_cons (users : UserTable) (text : GoString) (rest : List GoString) :
    initLoop users (text :: rest)
      = initLoop (match lineEntry text with
          | some (i, name) => users.set i name
          | none => users) rest := by
  rw [initLoop]
  unfold lineEntry
  simp only []
  by_cases h : (stringsSplit colon text).length < 3
  · have h3 : ¬ 3 ≤ (stringsSplit colon text).length := by omega
    simp [h, h3]
  · have h3 : 3 ≤ (stringsSplit colon text).length := by omega
    cases hp : strconvAtoi ((stringsSplit colon text).getD 2 []) with
    | error e => simp [h, h3, hp]
    | ok i => simp [h, h3, hp]

theorem initLoop_append (a b : List GoString) :
    ∀ users : UserTable, initLoop users (a ++ b) = initLoop (initLoop users a) b := by
  induction a with
  | nil => intro users; rfl
  | cons text rest ih =>
    intro users
    rw [List.cons_append, initLoop_cons, initLoop_cons, ih]

theorem lineEntry_eq_some (text : GoString) (id : Int) (name : GoString) :
    lineEntry text = some (id, name) ↔
      (3 ≤ (stringsSplit colon text).length
        ∧ strconvAtoi ((stringsSplit colon text).getD 2 []) = .ok id
        ∧ (stringsSplit colon text).getD 0 [] = name) := by
  unfold lineEntry
  simp only []
  by_cases h3 : 3 ≤ (stringsSplit colon text).length
  · cases hp : strconvAtoi ((stringsSplit colon text).getD 2 []) with
    | error e => simp [h3]
    | ok i => simp [h3]
  · simp [h3]

theorem lineEntry_eq_none (text : GoString)
    (h : (stringsSplit colon text).length < 3
      ∨ ∃ err, strconvAtoi ((stringsSplit colon text).getD 2 []) = .error err) :
    lineEntry text = none := by
  unfold lineEntry
  simp only []
  rcases h with h | ⟨err, h⟩
  · have h3 : ¬ 3 ≤ (stringsSplit colon text).length := by omega
    simp [h3]
  · by_cases h3 : 3 ≤ (stringsSplit colon text).length
    · rw [if_pos h3, h]
    · rw [if_neg h3]

theorem initLoop_value (lines : List GoString) :
    ∀ (users : UserTable) (id : Int) (name : GoString),
      initLoop users lines id = some name →
        users id = some name ∨ ∃ text, text ∈ lines ∧ lineEntry text = some (id, name) := by
  induction lines with
  | nil => intro users id name h; exact Or.inl h
  | cons text rest ih =>
    intro users id name h
    rw [initLoop_cons] at h
    rcases ih _ id name h with h1 | ⟨t, ht, hl⟩
    · cases he : lineEntry text with
      | none =>
        rw [he] at h1
        exact Or.inl h1
      | some e =>
        obtain ⟨i, n⟩ := e
        rw [he] at h1
        simp only [UserTable.set] at h1
        by_cases hid : id = i
        · rw [if_pos hid] at h1
          right
          refine ⟨text, List.mem_cons_self _ _, ?_⟩
          rw [he, hid]
          simpa using h1
        · rw [if_neg hid] at h1
          exact Or.inl h1
    · exact Or.inr ⟨t, List.mem_cons_of_mem _ ht, hl⟩

theorem initLoop_isSome (lines : List GoString) :
    ∀ (users : UserTable) (id : Int),
      ((users id).isSome = true ∨ ∃ text name, text ∈ lines ∧ lineEntry text = some (id, name)) →
        (initLoop users lines id).isSome = true := by
  induction lines with
  | nil =>
    intro users id h
    rcases h with h | ⟨t, n, ht, _⟩
    · exact h
    · cases ht
  | cons text rest ih =>
    intro users id h
    rw [initLoop_cons]
    apply ih
    rcases h with h | ⟨t, n, ht, hl⟩
    · left
      cases he : lineEntry text with
      | none => exact h
      | some e =>
        obtain ⟨i, m⟩ := e
        simp only [UserTable.set]
        by_cases hid : id = i
        · rw [if_pos hid]; rfl
        · rw [if_neg hid]; exact h
    · rcases List.mem_cons.mp ht with rfl | ht1
      · left
        rw [hl]
        simp [UserTable.set]
      · exact Or.inr ⟨t, n, ht1, hl⟩

theorem rawLines_segment (seg rest : List Byte) (h : (10 : Byte) ∉ seg) :
    rawLines (seg ++ 10 :: rest) = seg :: rawLines rest := by
  unfold rawLines
  rw [stringsSplit_append_sep, stringsSplit_no_sep 10 seg h, List.singleton_append,
    dropEmptyLast_cons seg _ (stringsSplit_ne_nil 10 rest)]

theorem takeWhile_all (p : List Byte → Bool) (l : List (List Byte))
    (h : ∀ x, x ∈ l → p x = true) : l.takeWhile p = l := by
  induction l with
  | nil => rfl
  | cons x rest ih =>
    rw [List.takeWhile_cons, h x (List.mem_cons_self _ _)]
    simp only [if_true]
    rw [ih (fun y hy => h y (List.mem_cons_of_mem _ hy))]

theorem scannerTexts_stops (first long rest : List Byte)
    (hf : (10 : Byte) ∉ first) (hfl : first.length < maxScanTokenSize)
    (hl : (10 : Byte) ∉ long) (hll : maxScanTokenSize ≤ long.length) :
    scannerTexts (first ++ 10 :: (long ++ 10 :: rest)) = [dropCR first] := by
  unfold scannerTexts
  rw [rawLines_segment first _ hf, rawLines_segment long _ hl, List.takeWhile_cons,
    List.takeWhile_cons]
  have h1 : decide (first.length < maxScanTokenSize) = true := decide_eq_true hfl
  have h2 : decide (long.length < maxScanTokenSize) = false :=
    decide_eq_false (Nat.not_lt.mpr hll)
  simp only [h1, h2, if_true, Bool.false_eq_true, if_false, List.map_cons, List.map_nil]

theorem overlongLine_no_newline : (10 : Byte) ∉ overlongLine := by
  intro h
  have h1 : (10 : Byte) = 120 := List.eq_of_mem_replicate h
  exact absurd h1 (by decide)

theorem overlongLine_length : maxScanTokenSize ≤ overlongLine.length := by
  unfold overlongLine maxScanTokenSize
  rw [List.length_replicate]

/-- C8, as stated, fails: in the account file with the lines alice (id 501),
a line of 65536 bytes, bob (id 502), the line of bob has three
colon-delimited fields and its third field parses as 502, but the table has
no key 502: the scanner stops at the overlong line and `init` reads no line
after it. -/
theorem init_stops_at_overlong_line :
    rawLines overlongFile
        = [goStr "alice:x:501:...", overlongLine, goStr "bob:x:502:..."]
      ∧ (∃ text, text ∈ fileLines overlongFile ∧ 3 ≤ (stringsSplit colon text).length
          ∧ strconvAtoi ((stringsSplit colon text).getD 2 []) = .ok 502)
      ∧ init (.ok overlongFile) 502 = none
      ∧ init (.ok overlongFile) 501 = some (goStr "alice") := by
  have hraw : rawLines overlongFile
      = [goStr "alice:x:501:...", overlongLine, goStr "bob:x:502:..."] := by
    unfold overlongFile
    rw [rawLines_segment _ _ (by decide), rawLines_segment _ _ overlongLine_no_newline]
    have hbob : rawLines (goStr "bob:x:502:..." ++ [10]) = [goStr "bob:x:502:..."] := by
      decide
    rw [hbob]
  have htexts : scannerTexts overlongFile = [goStr "alice:x:501:..."] := by
    unfold overlongFile
    rw [scannerTexts_stops _ _ _ (by decide) (by decide) overlongLine_no_newline
      overlongLine_length]
    decide
  refine ⟨hraw, ⟨goStr "bob:x:502:...", ?_, by decide, by decide⟩, ?_, ?_⟩
  · unfold fileLines
    rw [hraw]
    exact List.mem_map.mpr ⟨goStr "bob:x:502:...",
      List.mem_cons_of_mem _ (List.mem_cons_of_mem _ (List.mem_cons_self _ _)), by decide⟩
  · show initLoop UserTable.empty (scannerTexts overlongFile) 502 = none
    rw [htexts]
    decide
  · show initLoop UserTable.empty (scannerTexts overlongFile) 501 = some (goStr "alice")
    rw [htexts]
    decide

/-- C8 (amended): after `init` has read the account file, the table has the
key `id` exactly when some line that the scanner delivers (a line before the
first raw line of 65536 bytes or more; every line of the file when no line
is that long) has at least three colon-delimited fields and its third field
parses as the integer `id`; the value stored is the first field of such a
line; a delivered line with fewer than three fields or a third field that is
no integer changes nothing; and the file of the three sample lines yields
exactly the table with 501 for alice and 502 for bob. -/
theorem init_table_contents (data : List Byte) :
    (∀ id, (init (.ok data) id).isSome = true ↔
        ∃ text, text ∈ scannerTexts data ∧ 3 ≤ (stringsSplit colon text).length
          ∧ strconvAtoi ((stringsSplit colon text).getD 2 []) = .ok id)
      ∧ (∀ id name, init (.ok data) id = some name →
          ∃ text, text ∈ scannerTexts data ∧ 3 ≤ (stringsSplit colon text).length
            ∧ strconvAtoi ((stringsSplit colon text).getD 2 []) = .ok id
            ∧ (stringsSplit colon text).getD 0 [] = name)
      ∧ (∀ pre post text,
          ((stringsSplit colon text).length < 3
            ∨ ∃ err, strconvAtoi ((stringsSplit colon text).getD 2 []) = .error err) →
          scannerTexts data = pre ++ text :: post →
          init (.ok data) = initLoop UserTable.empty (pre ++ post))
      ∧ scannerTexts data
          = ((rawLines data).takeWhile
              (fun l => decide (l.length < 65536))).map dropCR
      ∧ ((∀ l, l ∈ rawLines data → l.length < 65536) → scannerTexts data = fileLines data)
      ∧ (fileLines sampleFile = sampleLines
          ∧ ∀ id, init (.ok sampleFile) id
              = if id = 501 then some (goStr "alice")
                else if id = 502 then some (goStr "bob") else none) := by
  refine ⟨?_, ?_, ?_, rfl, ?_, by decide, ?_⟩
  · intro id
    constructor
    · intro h
      obtain ⟨name, hname⟩ := Option.isSome_iff_exists.mp h
      rcases initLoop_value (scannerTexts data) UserTable.empty id name hname
        with h1 | ⟨t, ht, hl⟩
      · simp [UserTable.empty] at h1
      · rw [lineEntry_eq_some] at hl
        exact ⟨t, ht, hl.1, hl.2.1⟩
    · rintro ⟨t, ht, h3, hp⟩
      apply initLoop_isSome (scannerTexts data) UserTable.empty id
      right
      exact ⟨t, (stringsSplit colon t).getD 0 [], ht,
        (lineEntry_eq_some t id _).mpr ⟨h3, hp, rfl⟩⟩
  · intro id name h
    rcases initLoop_value (scannerTexts data) UserTable.empty id name h with h1 | ⟨t, ht, hl⟩
    · simp [UserTable.empty] at h1
    · rw [lineEntry_eq_some] at hl
      exact ⟨t, ht, hl⟩
  · intro pre post text hbad htexts
    show initLoop UserTable.empty (scannerTexts data) = initLoop UserTable.empty (pre ++ post)
    rw [htexts, initLoop_append, initLoop_append, initLoop_cons, lineEntry_eq_none text hbad]
  · intro hshort
    unfold scannerTexts fileLines
    rw [takeWhile_all (fun l => decide (l.length < maxScanTokenSize)) (rawLines data)
      (fun x hx => decide_eq_true (hshort x hx))]
  · intro id
    by_cases h1 : id = 501
    · subst h1; rfl
    · by_cases h2 : id = 502
      · subst h2; rfl
      · rw [if_neg h1, if_neg h2]
        show (if id = 502 then some (goStr "bob")
          else if id = 501 then some (goStr "alice") else none) = none
        rw [if_neg h2, if_neg h1]

theorem init_table_contents_witness :
    ((init (.ok sampleFile) 501).isSome = true ↔
        ∃ text, text ∈ scannerTexts sampleFile ∧ 3 ≤ (stringsSplit colon text).length
          ∧ strconvAtoi ((stringsSplit colon text).getD 2 []) = .ok 501)
      ∧ (∃ text, text ∈ scannerTexts sampleFile ∧ 3 ≤ (stringsSplit colon text).length
          ∧ strconvAtoi ((stringsSplit colon text).getD 2 []) = .ok 502
          ∧ (stringsSplit colon text).getD 0 [] = goStr "bob")
      ∧ init (.ok sampleFile)
          = initLoop UserTable.empty ([goStr "alice:x:501:..."] ++ [goStr "bob:x:502:..."])
      ∧ scannerTexts sampleFile = fileLines sampleFile :=
  ⟨(init_table_contents sampleFile).1 501,
   (init_table_contents sampleFile).2.1 502 (goStr "bob") (by decide),
   (init_table_contents sampleFile).2.2.1 [goStr "alice:x:501:..."] [goStr "bob:x:502:..."]
     (goStr "bad-line") (Or.inl (by decide)) (by decide),
   (init_table_contents sampleFile).2.2.2.2.1 (by decide)⟩

/-! ## Properties of the name decoding and of the accessors -/

namespace Darwin

theorem cstringLoop_eq (l : List Byte) :
    ∀ i, cstringLoop i l = i + (l.takeWhile (fun b => decide (b ≠ 0))).length := by
  induction l with
  | nil => intro i; simp [cstringLoop]
  | cons b rest ih =>
    intro i
    by_cases h : b = 0
    · simp [cstringLoop, List.takeWhile, h]
    · simp [cstringLoop, List.takeWhile, h, ih]
      omega

theorem take_length_takeWhile (p : Byte → Bool) (l : List Byte) :
    l.take (l.takeWhile p).length = l.takeWhile p := by
  induction l with
  | nil => rfl
  | cons b rest ih =>
    cases h : p b with
    | false => simp [List.takeWhile, h]
    | true => simp [List.takeWhile, h, ih]

theorem darwinCstring_eq_takeWhile (s : Block16) :
    darwinCstring s = s.val.takeWhile (fun b => decide (b ≠ 0)) := by
  unfold darwinCstring
  rw [cstringLoop_eq, Nat.zero_add, take_length_takeWhile]

theorem takeWhile_before_zero (pre rest : List Byte) :
    (pre ++ 0 :: rest).takeWhile (fun b => decide (b ≠ 0))
      = pre.takeWhile (fun b => decide (b ≠ 0)) := by
  induction pre with
  | nil => simp [List.takeWhile]
  | cons b more ih =>
    by_cases h : b = 0
    · simp [List.takeWhile, h]
    · have hb : decide (b ≠ 0) = true := by simp [h]
      rw [List.cons_append, List.takeWhile_cons, List.takeWhile_cons, hb]
      simp only [if_true]
      rw [ih]

theorem takeWhile_no_zero (l : List Byte) (h : (0 : Byte) ∉ l) :
    l.takeWhile (fun b => decide (b ≠ 0)) = l := by
  induction l with
  | nil => rfl
  | cons b rest ih =>
    have hb : b ≠ 0 := fun hb => h (by simp [hb])
    have hrest : (0 : Byte) ∉ rest := fun hr => h (List.mem_cons_of_mem _ hr)
    have hd : decide (b ≠ 0) = true := by simp [hb]
    rw [List.takeWhile_cons, hd]
    simp only [if_true]
    rw [ih hrest]

theorem zero_not_mem_takeWhile (l : List Byte) :
    (0 : Byte) ∉ l.takeWhile (fun b => decide (b ≠ 0)) := by
  intro h
  have := List.mem_takeWhile_imp h
  simp at this

/-- C9: for every 16-byte block `s`, `darwinCstring s` is the bytes of `s`
before its first zero byte, or all of `s` when `s` has no zero byte; it has
at most 16 bytes, contains no zero byte, and is the same for two blocks that
agree up to and including a zero byte. The block `a b c 0 0 ...` yields
`"abc"`. -/
theorem darwinCstring_spec (s : Block16) :
    (∀ pre rest, s.val = pre ++ 0 :: rest → (0 : Byte) ∉ pre → darwinCstring s = pre)
      ∧ ((0 : Byte) ∉ s.val → darwinCstring s = s.val)
      ∧ (darwinCstring s).length ≤ 16
      ∧ (0 : Byte) ∉ darwinCstring s
      ∧ (∀ (t : Block16) pre a b, s.val = pre ++ 0 :: a → t.val = pre ++ 0 :: b →
          darwinCstring s = darwinCstring t)
      ∧ darwinCstring ⟨[97, 98, 99, 0, 0, 0, 0, 0, 0, 0, 0, 0, 0, 0, 0, 0], rfl⟩
          = goStr "abc" := by
  refine ⟨?_, ?_, ?_, ?_, ?_, ?_⟩
  · intro pre rest hs hpre
    rw [darwinCstring_eq_takeWhile, hs, takeWhile_before_zero, takeWhile_no_zero pre hpre]
  · intro h
    rw [darwinCstring_eq_takeWhile, takeWhile_no_zero s.val h]
  · unfold darwinCstring
    rw [List.length_take, s.property]
    exact Nat.min_le_right _ _
  · rw [darwinCstring_eq_takeWhile]
    exact zero_not_mem_takeWhile s.val
  · intro t pre a b hs ht
    rw [darwinCstring_eq_takeWhile, darwinCstring_eq_takeWhile, hs, ht,
      takeWhile_before_zero, takeWhile_before_zero]
  · decide

theorem darwinCstring_spec_witness :
    darwinCstring sampleBlock = goStr "ab"
      ∧ darwinCstring sampleBlock
          = darwinCstring ⟨[97, 98, 0, 0, 0, 0, 0, 0, 0, 0, 0, 0, 0, 0, 0, 0], rfl⟩ :=
  ⟨(darwinCstring_spec sampleBlock).1 (goStr "ab")
      [120, 121, 122, 0, 7, 7, 7, 7, 7, 7, 7, 7, 7] rfl (by decide),
   (darwinCstring_spec sampleBlock).2.2.2.2.1
      ⟨[97, 98, 0, 0, 0, 0, 0, 0, 0, 0, 0, 0, 0, 0, 0, 0], rfl⟩ (goStr "ab")
      [120, 121, 122, 0, 7, 7, 7, 7, 7, 7, 7, 7, 7] [0, 0, 0, 0, 0, 0, 0, 0, 0, 0, 0, 0, 0]
      rfl rfl⟩

end Darwin

/-- C10, the part the code provides: on a `UnixProcess`, `Pid`, `PPid`,
`Uid` and `Executable` return the stored pid, ppid, uid and name, and `User`
returns the name the table holds for the stored uid, or the empty string
when the table has no such id, as for every uid when the account file could
not be opened; on a `DarwinProcess`, `Pid`, `PPid` and `Executable` return
the stored pid, ppid and name. -/
theorem accessors_return_stored_fields :
    (∀ (users : UserTable) (p : Unix.UnixProcess),
        p.Pid = p.pid ∧ p.PPid = p.ppid ∧ p.Uid = p.uid ∧ p.Executable = p.binary
          ∧ (∀ name, users p.uid = some name → p.User users = name)
          ∧ (users p.uid = none → p.User users = []))
      ∧ (∀ (err : GoError) (p : Unix.UnixProcess), p.User (init (.error err)) = [])
      ∧ (∀ p : Darwin.DarwinProcess,
          p.Pid = p.pid ∧ p.PPid = p.ppid ∧ p.Executable = p.binary) := by
  refine ⟨?_, ?_, ?_⟩
  · intro users p
    refine ⟨rfl, rfl, rfl, rfl, ?_, ?_⟩
    · intro name h
      simp [Unix.UnixProcess.User, UserTable.get, h]
    · intro h
      simp [Unix.UnixProcess.User, UserTable.get, h]
  · intro err p
    rfl
  · intro p
    exact ⟨rfl, rfl, rfl⟩

theorem accessors_return_stored_fields_witness :
    ({ Unix.sampleProcess 5 with uid := 501 } : Unix.UnixProcess).User (init (.ok sampleFile))
        = goStr "alice"
      ∧ ({ Unix.sampleProcess 5 with uid := 7 } : Unix.UnixProcess).User (init (.ok sampleFile))
        = [] :=
  ⟨(accessors_return_stored_fields.1 (init (.ok sampleFile))
      { Unix.sampleProcess 5 with uid := 501 }).2.2.2.2.1 (goStr "alice") (by decide),
   (accessors_return_stored_fields.1 (init (.ok sampleFile))
      { Unix.sampleProcess 5 with uid := 7 }).2.2.2.2.2 (by decide)⟩

/-! ## Properties of the record layout and of the loop arithmetic -/

namespace Darwin

theorem getElem?_eq_some_getD (l : List Byte) (i : Nat) (h : i < l.length) :
    l[i]? = some (l.getD i 0) := by
  simp [List.getD_eq_getElem?_getD, List.getElem?_eq_getElem h]

theorem getD_drop (l : List Byte) (n i : Nat) :
    (l.drop n).getD i 0 = l.getD (n + i) 0 := by
  simp [List.getD_eq_getElem?_getD, List.getElem?_drop]

theorem decodeFields_kinfoProcFields (w : List Byte) :
    decodeFields kinfoProcFields w RawKinfo.zero
      = { Pid := int32LE (w.getD 40 0) (w.getD 41 0) (w.getD 42 0) (w.getD 43 0),
          Comm := (w.drop 243).take 16,
          PPid := int32LE (w.getD 560 0) (w.getD 561 0) (w.getD 562 0) (w.getD 563 0) } := by
  simp only [kinfoProcFields, decodeFields, KinfoField.size, RawKinfo.zero, List.drop_drop,
    getD_drop]

theorem binaryRead_of_length (w : List Byte) (h : 648 ≤ w.length) :
    binaryRead w = .ok (decodeKinfo w h) := by
  unfold binaryRead
  rw [dif_pos h]

theorem darwinSyscall_error (query fetch : SysctlReply) (b : Option (List Byte))
    (err : GoError) (h : darwinSyscall query fetch = .ret (b, some err)) :
    err = .errno query.errno ∨ err = .errno fetch.errno := by
  unfold darwinSyscall at h
  by_cases h1 : query.errno ≠ 0
  · rw [if_pos h1] at h
    left
    simp only [Outcome.ret.injEq, Prod.mk.injEq, Option.some.injEq] at h
    exact h.2.symm
  · rw [if_neg h1] at h
    by_cases h2 : query.size = 0
    · rw [if_pos h2] at h
      cases h
    · rw [if_neg h2] at h
      simp only [] at h
      by_cases h3 : fetch.errno ≠ 0
      · rw [if_pos h3] at h
        right
        simp only [Outcome.ret.injEq, Prod.mk.injEq, Option.some.injEq] at h
        exact h.2.symm
      · rw [if_neg h3] at h
        by_cases h4 : query.size < fetch.size
        · rw [if_pos h4] at h
          cases h
        · rw [if_neg h4] at h
          simp at h

theorem processes_cases (query fetch : SysctlReply) :
    (∃ buf, darwinSyscall query fetch = .ret (some buf, none)
        ∧ processes query fetch = processesOn buf)
      ∨ (∃ b err, darwinSyscall query fetch = .ret (b, some err)
          ∧ processes query fetch = .ret (none, some err))
      ∨ processes query fetch = .panic := by
  unfold processes
  cases h : darwinSyscall query fetch with
  | ret v =>
    obtain ⟨b, e⟩ := v
    cases e with
    | some err =>
      cases b with
      | some buf => exact Or.inr (Or.inl ⟨some buf, err, rfl, rfl⟩)
      | none => exact Or.inr (Or.inl ⟨none, err, rfl, rfl⟩)
    | none =>
      cases b with
      | some buf => exact Or.inl ⟨buf, rfl, rfl⟩
      | none => exact Or.inr (Or.inr rfl)
  | panic => exact Or.inr (Or.inr rfl)
  | nofuel =>
    exfalso
    unfold darwinSyscall at h
    split at h
    · cases h
    · split at h
      · cases h
      · simp only [] at h
        split at h
        · cases h
        · split at h <;> cases h

theorem int32LE_signed (b0 b1 b2 b3 : Byte) :
    -2147483648 ≤ int32LE b0 b1 b2 b3 ∧ int32LE b0 b1 b2 b3 < 2147483648
      ∧ (int32LE b0 b1 b2 b3) % 4294967296
          = ((b0.val + 256 * b1.val + 65536 * b2.val + 16777216 * b3.val : Nat) : Int) := by
  have h0 := b0.isLt
  have h1 := b1.isLt
  have h2 := b2.isLt
  have h3 := b3.isLt
  unfold int32LE
  simp only []
  split <;> omega

theorem decodeKinfo_congr (w v : List Byte) (hw : w.length = 648) (hv : v.length = 648)
    (h : ∀ i, (40 ≤ i ∧ i < 44) ∨ (243 ≤ i ∧ i < 259) ∨ (560 ≤ i ∧ i < 564) →
      w.getD i 0 = v.getD i 0) :
    decodeKinfo w (by omega) = decodeKinfo v (by omega) := by
  have hcomm : (w.drop 243).take 16 = (v.drop 243).take 16 := by
    apply List.ext_getElem?
    intro i
    rw [List.getElem?_take, List.getElem?_take]
    by_cases hi : i < 16
    · rw [if_pos hi, if_pos hi, List.getElem?_drop, List.getElem?_drop,
        getElem?_eq_some_getD w (243 + i) (by omega),
        getElem?_eq_some_getD v (243 + i) (by omega),
        h (243 + i) (Or.inr (Or.inl ⟨by omega, by omega⟩))]
    · rw [if_neg hi, if_neg hi]
  unfold decodeKinfo
  simp only [kinfoProc.mk.injEq, Subtype.mk.injEq]
  refine ⟨?_, hcomm, ?_⟩
  · rw [h 40 (Or.inl ⟨by omega, by omega⟩), h 41 (Or.inl ⟨by omega, by omega⟩),
      h 42 (Or.inl ⟨by omega, by omega⟩), h 43 (Or.inl ⟨by omega, by omega⟩)]
  · rw [h 560 (Or.inr (Or.inr ⟨by omega, by omega⟩)),
      h 561 (Or.inr (Or.inr ⟨by omega, by omega⟩)),
      h 562 (Or.inr (Or.inr ⟨by omega, by omega⟩)),
      h 563 (Or.inr (Or.inr ⟨by omega, by omega⟩))]

/-- C11: the field sizes of `kinfoProc` sum to 648, the constant
`_KINFO_STRUCT_SIZE`; decoding a 648-byte window `w` never fails and gives
what the field walk of the declaration gives: the pid is the signed 32-bit
little-endian integer in `w[40..44)`, the parent pid the one in
`w[560..564)`, the name `darwinCstring` of `w[243..259)`, and windows that
agree on these 24 bytes give the same record; `processes` returns the
decoded list for every buffer and its only errors are the error codes of
the two system calls. -/
theorem kinfoProc_layout_and_decode :
    (kinfoDataSize = 648 ∧ kinfoDataSize = _KINFO_STRUCT_SIZE)
      ∧ (∀ w : List Byte, w.length = 648 →
          ∃ r, binaryRead w = .ok r
            ∧ decodeFields kinfoProcFields w RawKinfo.zero
                = { Pid := r.Pid, Comm := r.Comm.val, PPid := r.PPid }
            ∧ r.Pid = int32LE (w.getD 40 0) (w.getD 41 0) (w.getD 42 0) (w.getD 43 0)
            ∧ r.PPid = int32LE (w.getD 560 0) (w.getD 561 0) (w.getD 562 0) (w.getD 563 0)
            ∧ r.Comm.val = (w.drop 243).take 16
            ∧ ofKinfo r = { pid := r.Pid, ppid := r.PPid, uid := 0,
                            binary := darwinCstring r.Comm })
      ∧ (∀ b0 b1 b2 b3 : Byte,
          -2147483648 ≤ int32LE b0 b1 b2 b3 ∧ int32LE b0 b1 b2 b3 < 2147483648
            ∧ (int32LE b0 b1 b2 b3) % 4294967296
                = ((b0.val + 256 * b1.val + 65536 * b2.val + 16777216 * b3.val : Nat) : Int))
      ∧ (∀ w v : List Byte, w.length = 648 → v.length = 648 →
          (∀ i, (40 ≤ i ∧ i < 44) ∨ (243 ≤ i ∧ i < 259) ∨ (560 ≤ i ∧ i < 564) →
            w.getD i 0 = v.getD i 0) →
          binaryRead w = binaryRead v)
      ∧ (∀ buf : List Byte, ∃ ps, processesOn buf = .ret (some ps, none))
      ∧ (∀ (query fetch : SysctlReply) (err : GoError),
          processes query fetch = .ret (none, some err) →
            err = .errno query.errno ∨ err = .errno fetch.errno) := by
  refine ⟨⟨by decide, by decide⟩, ?_, int32LE_signed, ?_, ?_, ?_⟩
  · intro w hw
    refine ⟨decodeKinfo w (by omega), binaryRead_of_length w (by omega), ?_, rfl, rfl, rfl, rfl⟩
    rw [decodeFields_kinfoProcFields]
    rfl
  · intro w v hw hv h
    rw [binaryRead_of_length w (by omega), binaryRead_of_length v (by omega),
      decodeKinfo_congr w v hw hv h]
  · intro buf
    obtain ⟨rs, hps, _⟩ := processesOn_spec buf
    exact ⟨rs.map ofKinfo, hps⟩
  · intro query fetch err h
    rcases processes_cases query fetch with ⟨buf, _, hp⟩ | ⟨b, e, hsys, hp⟩ | hp
    · obtain ⟨rs, hps, _⟩ := processesOn_spec buf
      rw [hp, hps] at h
      simp at h
    · rw [hp] at h
      simp only [Outcome.ret.injEq, Prod.mk.injEq, Option.some.injEq, true_and] at h
      subst h
      exact darwinSyscall_error query fetch b e hsys
    · rw [hp] at h
      cases h

theorem kinfoProc_layout_and_decode_witness :
    sampleRecord.length = 648
      ∧ (∃ r, binaryRead sampleRecord = .ok r
          ∧ decodeFields kinfoProcFields sampleRecord RawKinfo.zero
              = { Pid := r.Pid, Comm := r.Comm.val, PPid := r.PPid }
          ∧ r.Pid = int32LE (sampleRecord.getD 40 0) (sampleRecord.getD 41 0)
              (sampleRecord.getD 42 0) (sampleRecord.getD 43 0)
          ∧ r.PPid = int32LE (sampleRecord.getD 560 0) (sampleRecord.getD 561 0)
              (sampleRecord.getD 562 0) (sampleRecord.getD 563 0)
          ∧ r.Comm.val = (sampleRecord.drop 243).take 16
          ∧ ofKinfo r = { pid := r.Pid, ppid := r.PPid, uid := 0,
                          binary := darwinCstring r.Comm })
      ∧ processesOn (sampleRecord ++ [0])
          = .ret (some [{ pid := -2147483647, ppid := -1, uid := 0, binary := goStr "sh" }],
              none) :=
  ⟨by decide!, kinfoProc_layout_and_decode.2.1 sampleRecord (by decide!), by decide!⟩

/-- C12: every record returned by `processes` has the uid field 0, whatever
the buffer holds: each one is built from a decoded window by setting pid,
ppid and the name only. -/
theorem processes_uid_is_zero (query fetch : SysctlReply) (ps : List DarwinProcess)
    (h : processes query fetch = .ret (some ps, none)) :
    ∀ p, p ∈ ps →
      p.uid = 0
        ∧ ∃ r : kinfoProc,
            p = { pid := r.Pid, ppid := r.PPid, uid := 0, binary := darwinCstring r.Comm } := by
  intro p hp
  rcases processes_cases query fetch with ⟨buf, _, hpb⟩ | ⟨b, e, _, hpe⟩ | hpp
  · obtain ⟨rs, hps, _⟩ := processesOn_spec buf
    rw [hpb, hps] at h
    simp only [Outcome.ret.injEq, Prod.mk.injEq, Option.some.injEq, and_true] at h
    subst h
    obtain ⟨r, _, rfl⟩ := List.mem_map.mp hp
    exact ⟨rfl, r, rfl⟩
  · rw [hpe] at h
    simp at h
  · rw [hpp] at h
    cases h

theorem processes_uid_is_zero_witness :
    processes (sizeReply 649) (dataReply (sampleRecord ++ [9]))
        = .ret (some [{ pid := -2147483647, ppid := -1, uid := 0, binary := goStr "sh" }], none)
      ∧ ∀ p, p ∈ [({ pid := -2147483647, ppid := -1, uid := 0, binary := goStr "sh" }
            : DarwinProcess)] →
          p.uid = 0
            ∧ ∃ r : kinfoProc,
                p = { pid := r.Pid, ppid := r.PPid, uid := 0, binary := darwinCstring r.Comm } :=
  ⟨by decide!,
    processes_uid_is_zero (sizeReply 649) (dataReply (sampleRecord ++ [9])) _ (by decide!)⟩

theorem window_take (l : List Byte) (m t : Nat) (h : 648 * (t + 1) ≤ m) :
    window (l.take m) t = window l t := by
  unfold window
  rw [List.drop_take, List.take_take]
  have : min 648 (m - 648 * t) = 648 := by omega
  rw [this]

/-- C13: on a buffer of any length `M` the decode loop takes one slice for
each multiple `i` of 648 with `648 ≤ i < M`, namely `[i - 648, i)`; it
returns `ceil(M/648) - 1` records when `M > 0` and none when `M ≤ 648`, the
`j`-th decoded from bytes `[648*j, 648*(j+1))`; and the bytes from the last
such multiple on do not influence the result. -/
theorem processes_window_arithmetic (buf : List Byte) :
    (∀ i, (∃ k, (k, i) ∈ sliceTrace buf) ↔ (648 ∣ i ∧ 648 ≤ i ∧ i < buf.length))
      ∧ sliceTrace buf
          = (List.range' 0 ((buf.length - 1) / 648)).map (fun t => (648 * t, 648 * (t + 1)))
      ∧ (∃ ps, processesOn buf = .ret (some ps, none)
          ∧ (0 < buf.length → ps.length = (buf.length + 647) / 648 - 1)
          ∧ (buf.length ≤ 648 → ps = [])
          ∧ ∀ j, j < ps.length →
              ∃ r, binaryRead (window buf j) = .ok r ∧ ps[j]? = some (ofKinfo r))
      ∧ (∀ other : List Byte, other.length = buf.length →
          other.take (648 * ((buf.length - 1) / 648))
            = buf.take (648 * ((buf.length - 1) / 648)) →
          processesOn other = processesOn buf)
      ∧ (∀ query fetch, darwinSyscall query fetch = .ret (some buf, none) →
          processes query fetch = processesOn buf) := by
  obtain ⟨rs, hps, htr, hlen, hget⟩ := processesOn_spec buf
  refine ⟨?_, htr, ?_, ?_, fun query fetch hsys => processes_of_buffer query fetch buf hsys⟩
  · intro i
    rw [htr]
    constructor
    · rintro ⟨k, hk⟩
      obtain ⟨t, ht, heq⟩ := List.mem_map.mp hk
      rw [List.mem_range'_1] at ht
      simp only [Prod.mk.injEq] at heq
      obtain ⟨_, rfl⟩ := heq
      exact ⟨Dvd.intro _ rfl, by omega, by omega⟩
    · rintro ⟨⟨c, rfl⟩, h1, h2⟩
      refine ⟨648 * (c - 1), List.mem_map.mpr ⟨c - 1, ?_, ?_⟩⟩
      · rw [List.mem_range'_1]
        omega
      · have hc : c - 1 + 1 = c := by omega
        rw [hc]
  · refine ⟨rs.map ofKinfo, hps, ?_, ?_, ?_⟩
    · intro hpos
      rw [List.length_map, hlen]
      omega
    · intro hle
      have h0 : rs.length = 0 := by omega
      rw [List.length_eq_zero.mp h0]
      rfl
    · intro j hj
      rw [List.length_map, hlen] at hj
      obtain ⟨r, h1, h2⟩ := hget j hj
      exact ⟨r, h1, by simp [h2]⟩
  · intro other hol htake
    obtain ⟨rs1, hps1, _, hlen1, hget1⟩ := processesOn_spec other
    rw [hol] at hlen1 hget1
    have hrs : rs1 = rs := by
      apply List.ext_getElem?
      intro t
      by_cases ht : t < (buf.length - 1) / 648
      · obtain ⟨r1, ha, hb⟩ := hget1 t ht
        obtain ⟨r, hc, hd⟩ := hget t ht
        have hw : window other t = window buf t := by
          rw [← window_take other (648 * ((buf.length - 1) / 648)) t (by omega),
            ← window_take buf (648 * ((buf.length - 1) / 648)) t (by omega), htake]
        rw [hw, hc] at ha
        simp only [Except.ok.injEq] at ha
        rw [hb, hd, ha]
      · rw [List.getElem?_eq_none (by omega), List.getElem?_eq_none (by omega)]
    rw [hps1, hps, hrs]

theorem processes_window_arithmetic_witness :
    processesOn (recordWithPid 1 ++ recordWithPid 2)
        = .ret (some [{ pid := 1, ppid := 0, uid := 0, binary := [] }], none)
      ∧ processesOn (recordWithPid 1 ++ recordWithPid 3)
        = processesOn (recordWithPid 1 ++ recordWithPid 2)
      ∧ ((∃ k, (k, 648) ∈ sliceTrace (recordWithPid 1 ++ recordWithPid 2)) ↔
          (648 ∣ 648 ∧ 648 ≤ 648 ∧ 648 < (recordWithPid 1 ++ recordWithPid 2).length)) :=
  ⟨by decide!,
   (processes_window_arithmetic (recordWithPid 1 ++ recordWithPid 2)).2.2.2.1
     (recordWithPid 1 ++ recordWithPid 3) (by decide!) (by decide!),
   (processes_window_arithmetic (recordWithPid 1 ++ recordWithPid 2)).1 648⟩

end Darwin

/-! ## Repeated ids in the account table -/

theorem initLoop_no_entry (lines : List GoString) (id : Int) :
    ∀ users : UserTable,
      (∀ t, t ∈ lines → ∀ name, lineEntry t ≠ some (id, name)) →
      initLoop users lines id = users id := by
  induction lines with
  | nil => intro users _; rfl
  | cons text rest ih =>
    intro users h
    rw [initLoop_cons, ih _ (fun t ht => h t (List.mem_cons_of_mem _ ht))]
    cases he : lineEntry text with
    | none => rfl
    | some e =>
      obtain ⟨i, n⟩ := e
      have hne : id ≠ i := by
        intro hid
        apply h text (List.mem_cons_self _ _) n
        rw [he, hid]
      simp only [UserTable.set]
      rw [if_neg hne]

theorem rawLines_append_terminated (f rest : List Byte) :
    rawLines (f ++ 10 :: rest) = rawLines (f ++ [10]) ++ rawLines rest := by
  have hlast : rawLines (f ++ [10]) = stringsSplit 10 f := by
    unfold rawLines
    rw [stringsSplit_append_sep, stringsSplit_nil]
    unfold dropEmptyLast
    rw [if_pos (by simp), List.dropLast_concat]
  rw [hlast]
  unfold rawLines
  rw [stringsSplit_append_sep, dropEmptyLast_append _ _ (stringsSplit_ne_nil 10 rest)]

theorem initLoop_insert_skipped (p : List Byte → Bool) (x : List Byte)
    (hx : p x = true) (hbad : lineEntry (dropCR x) = none) (B : List (List Byte)) :
    ∀ (A : List (List Byte)) (users : UserTable),
      initLoop users (((A ++ x :: B).takeWhile p).map dropCR)
        = initLoop users (((A ++ B).takeWhile p).map dropCR) := by
  intro A
  induction A with
  | nil =>
    intro users
    rw [List.nil_append, List.nil_append, List.takeWhile_cons, hx]
    simp only [if_true, List.map_cons]
    rw [initLoop_cons, hbad]
  | cons a rest ih =>
    intro users
    rw [List.cons_append, List.cons_append, List.takeWhile_cons, List.takeWhile_cons]
    cases hp : p a with
    | false => rfl
    | true =>
      simp only [if_true, List.map_cons]
      rw [initLoop_cons, initLoop_cons, ih]

theorem init_insert_line (front back bad : List Byte)
    (hfront : front = [] ∨ ∃ f, front = f ++ [10])
    (hnl : (10 : Byte) ∉ bad) (hshort : bad.length < maxScanTokenSize)
    (hbad : lineEntry (dropCR bad) = none) :
    init (.ok (front ++ (bad ++ 10 :: back))) = init (.ok (front ++ back)) := by
  show initLoop UserTable.empty (scannerTexts (front ++ (bad ++ 10 :: back)))
    = initLoop UserTable.empty (scannerTexts (front ++ back))
  unfold scannerTexts
  rcases hfront with rfl | ⟨f, rfl⟩
  · rw [List.nil_append, List.nil_append, rawLines_segment bad back hnl]
    exact initLoop_insert_skipped _ bad (decide_eq_true hshort) hbad (rawLines back) []
      UserTable.empty
  · have h1 : f ++ [10] ++ (bad ++ 10 :: back) = f ++ 10 :: (bad ++ 10 :: back) := by
      simp
    have h2 : f ++ [10] ++ back = f ++ 10 :: back := by simp
    rw [h1, h2, rawLines_append_terminated f (bad ++ 10 :: back),
      rawLines_append_terminated f back, rawLines_segment bad back hnl]
    exact initLoop_insert_skipped _ bad (decide_eq_true hshort) hbad (rawLines back)
      (rawLines (f ++ [10])) UserTable.empty

/-- C14, as stated, fails: in the account file with the lines alice (id
501), a line of 65536 bytes, carol (id 501), the last well-formed line with
the id 501 is the one of carol, but the table holds alice; and this file is
the file of the two lines alice and carol with a malformed line (one field)
put between them, yet the two files give different tables. -/
theorem init_overlong_line_hides_later_lines :
    rawLines overlongRepeatedFile
        = [goStr "alice:x:501:a", overlongLine, goStr "carol:x:501:c"]
      ∧ (3 ≤ (stringsSplit colon (goStr "carol:x:501:c")).length
          ∧ strconvAtoi ((stringsSplit colon (goStr "carol:x:501:c")).getD 2 []) = .ok 501
          ∧ (stringsSplit colon (goStr "carol:x:501:c")).getD 0 [] = goStr "carol")
      ∧ init (.ok overlongRepeatedFile) 501 = some (goStr "alice")
      ∧ (stringsSplit colon overlongLine).length < 3
      ∧ init (.ok (goStr "alice:x:501:a" ++ 10 :: (goStr "carol:x:501:c" ++ [10]))) 501
          = some (goStr "carol")
      ∧ init (.ok overlongRepeatedFile)
          ≠ init (.ok (goStr "alice:x:501:a" ++ 10 :: (goStr "carol:x:501:c" ++ [10]))) := by
  have hraw : rawLines overlongRepeatedFile
      = [goStr "alice:x:501:a", overlongLine, goStr "carol:x:501:c"] := by
    unfold overlongRepeatedFile
    rw [rawLines_segment _ _ (by decide), rawLines_segment _ _ overlongLine_no_newline]
    have hcarol : rawLines (goStr "carol:x:501:c" ++ [10]) = [goStr "carol:x:501:c"] := by
      decide
    rw [hcarol]
  have htexts : scannerTexts overlongRepeatedFile = [goStr "alice:x:501:a"] := by
    unfold overlongRepeatedFile
    rw [scannerTexts_stops _ _ _ (by decide) (by decide) overlongLine_no_newline
      overlongLine_length]
    decide
  have hlong : init (.ok overlongRepeatedFile) 501 = some (goStr "alice") := by
    show initLoop UserTable.empty (scannerTexts overlongRepeatedFile) 501 = _
    rw [htexts]
    decide
  have hshort : init (.ok (goStr "alice:x:501:a" ++ 10 :: (goStr "carol:x:501:c" ++ [10]))) 501
      = some (goStr "carol") := by
    decide
  have hcolon : colon ∉ overlongLine := by
    intro h
    have h1 : colon = 120 := List.eq_of_mem_replicate h
    exact absurd h1 (by decide)
  refine ⟨hraw, by decide, hlong, ?_, hshort, ?_⟩
  · rw [stringsSplit_no_sep colon overlongLine hcolon]
    decide
  · intro h
    have h1 := congrFun h 501
    rw [hlong, hshort] at h1
    exact absurd h1 (by decide)

/-- C14 (amended): among the lines the scanner delivers (the lines before
the first raw line of 65536 bytes or more), when several well-formed lines
carry the same id the table holds for that id the first field of the last
such line in file order; and putting a malformed line (fewer than three
fields, or a third field that is no integer) of fewer than 65536 bytes at
any line boundary of the file leaves the table unchanged. -/
theorem init_last_line_wins (data : List Byte) :
    (∀ pre text post id, scannerTexts data = pre ++ text :: post →
        3 ≤ (stringsSplit colon text).length →
        strconvAtoi ((stringsSplit colon text).getD 2 []) = .ok id →
        (∀ t, t ∈ post →
          ¬ (3 ≤ (stringsSplit colon t).length
              ∧ strconvAtoi ((stringsSplit colon t).getD 2 []) = .ok id)) →
        init (.ok data) id = some ((stringsSplit colon text).getD 0 []))
      ∧ (∀ front back bad, data = front ++ back →
          (front = [] ∨ ∃ f, front = f ++ [10]) →
          (10 : Byte) ∉ bad → bad.length < 65536 →
          ((stringsSplit colon (dropCR bad)).length < 3
            ∨ ∃ err, strconvAtoi ((stringsSplit colon (dropCR bad)).getD 2 []) = .error err) →
          init (.ok (front ++ (bad ++ 10 :: back))) = init (.ok data)) := by
  constructor
  · intro pre text post id hl h3 hid hpost
    show initLoop UserTable.empty (scannerTexts data) id = _
    have hentry : lineEntry text = some (id, (stringsSplit colon text).getD 0 []) :=
      (lineEntry_eq_some text id _).mpr ⟨h3, hid, rfl⟩
    rw [hl, initLoop_append, initLoop_cons, hentry]
    rw [initLoop_no_entry post id _ (fun t ht name hn =>
      hpost t ht ⟨((lineEntry_eq_some t id name).mp hn).1,
        ((lineEntry_eq_some t id name).mp hn).2.1⟩)]
    simp [UserTable.set]
  · intro front back bad hdata hfront hnl hshort hbad
    subst hdata
    exact init_insert_line front back bad hfront hnl hshort (lineEntry_eq_none _ hbad)

theorem init_last_line_wins_witness :
    init (.ok repeatedFile) 501 = some (goStr "carol")
      ∧ init (.ok ((goStr "alice:x:501:a" ++ [10])
          ++ (goStr "x:y" ++ 10 :: fileOf [goStr "carol:x:501:c", goStr "bob:x:502:b"])))
        = init (.ok repeatedFile) :=
  ⟨(init_last_line_wins repeatedFile).1 [goStr "alice:x:501:a"]
      (goStr "carol:x:501:c") [goStr "bob:x:502:b"] 501 (by decide) (by decide) (by decide)
      (by decide),
   (init_last_line_wins repeatedFile).2 (goStr "alice:x:501:a" ++ [10])
      (fileOf [goStr "carol:x:501:c", goStr "bob:x:502:b"]) (goStr "x:y") (by decide)
      (Or.inr ⟨goStr "alice:x:501:a", rfl⟩) (by decide) (by decide) (Or.inl (by decide))⟩

end GoPs
